import Mathlib

/-!
Verification of the question-processing pipeline in `src/images.js`.

The development shallowly embeds the components of the pipeline:

* the image store and its grouping by question number
  (`getQuestionImages`, `renderQuestionButtons`);
* the AI service client (`extract`, `solve`, `callTogetherAPI`), with the
  remote call's outcome abstracted into an `APIResponse` value;
* the rate limiter (`rateLimitedAPICall` / `processAPIQueue`), as
  (a) an untimed small-step machine over the queue, the
  `isProcessingQueue` flag and the set of live drain-loop instances, and
  (b) a timed refinement that additionally tracks the clock,
  `lastAPICallTime`, the rate-limit sleeps and the dispatch/completion
  instants;
* the pipeline scheduler (`fillBuffer`, `processQuestion`,
  `initializeProcessing`), as a small-step machine whose events are the
  suspension-resume points of `processQuestion` tasks (the two `await`s),
  the defensive catch handler, and the reset button.

JavaScript `Map`s are modelled as association lists, `Set`s as duplicate-free
lists, and the single-threaded event loop as the interleaving of resume
events: between two suspension points a task runs synchronously and
atomically, exactly as in the browser.
-/

/-! ### Association lists (JS `Map`) -/

/-- Lookup in an association list; `Map.get` (missing key ↦ `undefined` ↦ `none`). -/
def alookup {α : Type} : List (String × α) → String → Option α
  | [], _ => none
  | (k, v) :: l, q => if k = q then some v else alookup l q

/-- Update an association list; `Map.set` (overwrites in place, appends when new). -/
def aset {α : Type} : List (String × α) → String → α → List (String × α)
  | [], k, v => [(k, v)]
  | (k', v') :: l, k, v => if k' = k then (k, v) :: l else (k', v') :: aset l k v

theorem alookup_aset_self {α : Type} (l : List (String × α)) (k : String) (v : α) :
    alookup (aset l k v) k = some v := by
  induction l with
  | nil => simp [aset, alookup]
  | cons p l ih =>
    by_cases h : p.1 = k
    · simp [aset, alookup, h]
    · simp [aset, alookup, h, ih]

theorem alookup_aset_other {α : Type} (l : List (String × α)) (k k' : String) (v : α)
    (hne : k' ≠ k) : alookup (aset l k v) k' = alookup l k' := by
  have hkk : ¬k = k' := fun h => hne h.symm
  induction l with
  | nil => simp [aset, alookup, hkk]
  | cons p l ih =>
    obtain ⟨pk, pv⟩ := p
    by_cases h : pk = k
    · subst h
      simp [aset, alookup, hkk]
    · by_cases h' : pk = k'
      · simp [aset, alookup, h, h', hne]
      · simp [aset, alookup, h, h', ih]

/-! ### Stored images and grouping by question number (`images.js`) -/

/-- One record of the `savedImages` collection: `{ dataUrl, questionNumber }`.
`questionNumber` is `none` when the field is absent. -/
structure StoredImage where
  dataUrl : String
  questionNumber : Option String
deriving DecidableEq

/-- The JS idiom `img.questionNumber || 'No Q#'`: an absent field and the
empty string are both falsy and replaced by the literal `'No Q#'`. -/
def qnOrDefault (qn : Option String) : String :=
  match qn with
  | none => "No Q#"
  | some s => if s = "" then "No Q#" else s

/-- `getQuestionImages` (src/images.js:302):
`images.filter(img => (img.questionNumber || 'No Q#') === questionNumber)`. -/
def getQuestionImages (questionNumber : String) (images : List StoredImage) :
    List StoredImage :=
  images.filter fun img => qnOrDefault img.questionNumber == questionNumber

/-- Key insertion into the `uniqueQuestions` map of `renderQuestionButtons`:
`Map.set` keeps the first-insertion order and ignores later duplicates. -/
def insertKey (ks : List String) (k : String) : List String :=
  if k ∈ ks then ks else ks ++ [k]

/-- The key sequence of the `uniqueQuestions` map built in
`renderQuestionButtons` (src/images.js:683-692); it becomes `allQuestions`. -/
def uniqueKeys (images : List StoredImage) : List String :=
  images.foldl (fun ks img => insertKey ks (qnOrDefault img.questionNumber)) []

theorem insertKey_nodup (ks : List String) (k : String) (h : ks.Nodup) :
    (insertKey ks k).Nodup := by
  unfold insertKey
  by_cases hk : k ∈ ks
  · simpa [hk]
  · simpa [hk] using List.Nodup.append h (List.nodup_singleton k) (by simpa using hk)

theorem mem_insertKey (ks : List String) (k q : String) :
    q ∈ insertKey ks k ↔ q ∈ ks ∨ q = k := by
  unfold insertKey
  by_cases hk : k ∈ ks
  · simp only [if_pos hk]
    constructor
    · exact Or.inl
    · rintro (h | rfl) <;> [exact h; exact hk]
  · simp [hk]

theorem uniqueKeys_aux_nodup (images : List StoredImage) (ks : List String)
    (h : ks.Nodup) :
    (images.foldl (fun ks img => insertKey ks (qnOrDefault img.questionNumber)) ks).Nodup := by
  induction images generalizing ks with
  | nil => simpa
  | cons img rest ih => exact ih _ (insertKey_nodup _ _ h)

theorem uniqueKeys_nodup (images : List StoredImage) : (uniqueKeys images).Nodup :=
  uniqueKeys_aux_nodup images [] List.nodup_nil

theorem mem_uniqueKeys_aux (images : List StoredImage) (ks : List String) (q : String) :
    q ∈ images.foldl (fun ks img => insertKey ks (qnOrDefault img.questionNumber)) ks ↔
      q ∈ ks ∨ ∃ img ∈ images, qnOrDefault img.questionNumber = q := by
  induction images generalizing ks with
  | nil => simp
  | cons img rest ih =>
    simp only [List.foldl_cons, ih, mem_insertKey]
    constructor
    · rintro ((h | h) | h)
      · exact Or.inl h
      · exact Or.inr ⟨img, by simp, h.symm⟩
      · rcases h with ⟨i, hi, hq⟩
        exact Or.inr ⟨i, by simp [hi], hq⟩
    · rintro (h | ⟨i, hi, hq⟩)
      · exact Or.inl (Or.inl h)
      · rcases List.mem_cons.mp hi with rfl | hi
        · exact Or.inl (Or.inr hq.symm)
        · exact Or.inr ⟨i, hi, hq⟩

theorem mem_uniqueKeys (images : List StoredImage) (q : String) :
    q ∈ uniqueKeys images ↔ ∃ img ∈ images, qnOrDefault img.questionNumber = q := by
  simpa using mem_uniqueKeys_aux images [] q

/-! ### The AI service client (`extract`, `solve`, `callTogetherAPI`) -/

/-- Outcome of the remote `fetch` to the chat-completions endpoint, as
`callTogetherAPI` (src/images.js:379-416) distinguishes them:
a 2xx response with the expected `choices[0].message.content`, a non-2xx
status (with the optional `error.message` of the error payload), or a 2xx
response whose payload misses the expected field. -/
inductive APIResponse
  | ok (content : String)
  | httpError (status : Nat) (statusText : String) (errMessage : Option String)
  | malformed
deriving DecidableEq

/-- The result of the inner `apiCallFunction` of `callTogetherAPI`: the
content on success, otherwise the thrown `Error`'s message. -/
def callResult (r : APIResponse) : Except String String :=
  match r with
  | .ok c => .ok c
  | .httpError status statusText errMessage =>
      .error ("API call failed: " ++ toString status ++ " " ++ statusText ++ ". "
        ++ errMessage.getD "")
  | .malformed => .error "Invalid response format from API"

/-- The environment a client call runs in: the stored API key (`none` when
absent), the stored images, and the remote service's behaviour. -/
structure ClientEnv where
  apiKey : Option String
  storedImages : List StoredImage
  response : APIResponse
deriving DecidableEq

/-- The JS truthiness test `if (!apiKey)`: missing key or empty string. -/
def keyMissing (k : Option String) : Bool :=
  match k with
  | none => true
  | some s => s = ""

/-- The fallback string of `extract`'s catch block (src/images.js:464). -/
def extractFallback (questionNumber msg : String) : String :=
  "Error extracting content for Question " ++ questionNumber ++ ": " ++ msg
    ++ ". Please check your API configuration and try again."

/-- The fallback string of `solve`'s catch block (src/images.js:505-510);
it embeds the original extracted text. -/
def solveFallback (questionNumber msg extractedText : String) : String :=
  "Error solving Question " ++ questionNumber ++ ": " ++ msg
    ++ ". \n\nOriginal extracted content:\n" ++ extractedText
    ++ "\n\nPlease check your API configuration and try again."

/-- `extract` (src/images.js:423-466). Every throw inside the `try` block is
caught and turned into `extractFallback`, so the function totally returns a
`String` — no failure propagates to the caller. -/
def extract (env : ClientEnv) (questionNumber : String) : String :=
  if keyMissing env.apiKey then
    extractFallback questionNumber "Please configure your Together AI API key first"
  else if (getQuestionImages questionNumber env.storedImages).length = 0 then
    extractFallback questionNumber ("No images found for question " ++ questionNumber)
  else
    match callResult env.response with
    | .ok t => t
    | .error m => extractFallback questionNumber m

/-- `solve` (src/images.js:474-512). Same catch-all policy as `extract`;
the fallback additionally embeds the extracted text. -/
def solve (env : ClientEnv) (questionNumber extractedText : String) : String :=
  if keyMissing env.apiKey then
    solveFallback questionNumber "Please configure your Together AI API key first"
      extractedText
  else
    match callResult env.response with
    | .ok t => t
    | .error m => solveFallback questionNumber m extractedText

/-- `RATE_LIMIT_DELAY` (src/images.js:214). -/
def RATE_LIMIT_DELAY : Nat := 2000

/-! ### The API gate as a machine (`rateLimitedAPICall` / `processAPIQueue`)

States record the pending queue (call identifiers, in submission order), the
`isProcessingQueue` flag, the identifiers of all drain-loop instances that
are live (each suspended awaiting its current call's promise), and the logs
of submissions and dispatches.  Events: a submission (`rateLimitedAPICall`:
push, then start `processAPIQueue` unless the flag is set — the new loop
runs synchronously to its first suspension, i.e. it shifts the queue head
and awaits that call), the completion of a live loop's current call (the
loop resumes: it either exits, clearing the flag, or shifts and dispatches
the next call), and the reset performed by `initializeProcessing`
(src/images.js:652-654: `apiCallQueue.length = 0; isProcessingQueue =
false`), which does not touch suspended loops. -/

structure GateState where
  apiCallQueue : List Nat
  isProcessingQueue : Bool
  drainLoops : List Nat
  nextLoopId : Nat
  nextCallId : Nat
  submitted : List Nat
  dispatched : List (Nat × Nat)
deriving DecidableEq

inductive GateEv
  | submit
  | complete (loopId : Nat)
  | reset
deriving DecidableEq

/-- `rateLimitedAPICall` (src/images.js:322-332): push the call, then start
`processAPIQueue` unless the flag is already set; the freshly started loop
runs synchronously to its first suspension, shifting the queue head and
awaiting that call (the push does not change the flag, so checking it before
or after the push is equivalent). -/
def gateSubmit (s : GateState) : GateState :=
  if s.isProcessingQueue then
    { s with apiCallQueue := s.apiCallQueue ++ [s.nextCallId],
             nextCallId := s.nextCallId + 1,
             submitted := s.submitted ++ [s.nextCallId] }
  else
    match s.apiCallQueue ++ [s.nextCallId] with
    | [] =>
      { s with apiCallQueue := s.apiCallQueue ++ [s.nextCallId],
               nextCallId := s.nextCallId + 1,
               submitted := s.submitted ++ [s.nextCallId] }
    | callId :: rest =>
      { s with isProcessingQueue := true,
               drainLoops := s.drainLoops ++ [s.nextLoopId],
               nextLoopId := s.nextLoopId + 1,
               apiCallQueue := rest,
               dispatched := s.dispatched ++ [(s.nextLoopId, callId)],
               nextCallId := s.nextCallId + 1,
               submitted := s.submitted ++ [s.nextCallId] }

/-- A live drain loop's current call settles and the loop resumes
(src/images.js:344-369). -/
def gateComplete (s : GateState) (loopId : Nat) : GateState :=
  if loopId ∈ s.drainLoops then
    match s.apiCallQueue with
    | [] => { s with isProcessingQueue := false, drainLoops := s.drainLoops.erase loopId }
    | callId :: rest =>
      { s with apiCallQueue := rest, dispatched := s.dispatched ++ [(loopId, callId)] }
  else s

def gateStep (s : GateState) : GateEv → GateState
  | .submit => gateSubmit s
  | .complete loopId => gateComplete s loopId
  | .reset => { s with apiCallQueue := [], isProcessingQueue := false }

def gateExec (s : GateState) : List GateEv → GateState
  | [] => s
  | e :: es => gateExec (gateStep s e) es

def gateInit : GateState :=
  { apiCallQueue := [], isProcessingQueue := false, drainLoops := [],
    nextLoopId := 0, nextCallId := 0, submitted := [], dispatched := [] }

/-! ### Theorems: the AI service client (claim C2) -/

/-- **C2.** For every invocation of `extract` or `solve` and every failure
cause — no credential configured, zero images for the question (`extract`
only), non-success response, malformed payload — the operation never
propagates the failure to its caller (both functions are total,
`String`-valued); it returns the human-readable fallback string embedding
the error message, and `solve`'s fallback additionally embeds the original
extracted text. -/
theorem C2_failure_placeholder (env : ClientEnv) (qn et : String) :
    (keyMissing env.apiKey = true →
      extract env qn =
        extractFallback qn "Please configure your Together AI API key first" ∧
      solve env qn et =
        solveFallback qn "Please configure your Together AI API key first" et) ∧
    (getQuestionImages qn env.storedImages = [] → keyMissing env.apiKey = false →
      extract env qn = extractFallback qn ("No images found for question " ++ qn)) ∧
    (∀ status statusText errMessage,
      env.response = APIResponse.httpError status statusText errMessage →
      keyMissing env.apiKey = false → getQuestionImages qn env.storedImages ≠ [] →
      extract env qn = extractFallback qn ("API call failed: " ++ toString status
        ++ " " ++ statusText ++ ". " ++ errMessage.getD "") ∧
      solve env qn et = solveFallback qn ("API call failed: " ++ toString status
        ++ " " ++ statusText ++ ". " ++ errMessage.getD "") et) ∧
    (env.response = APIResponse.malformed → keyMissing env.apiKey = false →
      getQuestionImages qn env.storedImages ≠ [] →
      extract env qn = extractFallback qn "Invalid response format from API" ∧
      solve env qn et = solveFallback qn "Invalid response format from API" et) ∧
    (∀ msg, ∃ pre post, extractFallback qn msg = pre ++ (msg ++ post)) ∧
    (∀ msg, ∃ pre mid post,
      solveFallback qn msg et = pre ++ (msg ++ (mid ++ (et ++ post)))) := by
  refine ⟨?_, ?_, ?_, ?_, ?_, ?_⟩
  · intro hk
    exact ⟨by simp [extract, hk], by simp [solve, hk]⟩
  · intro himg hk
    simp [extract, hk, himg]
  · intro status statusText errMessage hr hk himg
    constructor
    · simp [extract, hk, List.length_eq_zero, himg, hr, callResult]
    · simp [solve, hk, hr, callResult]
  · intro hr hk himg
    constructor
    · simp [extract, hk, List.length_eq_zero, himg, hr, callResult]
    · simp [solve, hk, hr, callResult]
  · intro msg
    refine ⟨"Error extracting content for Question " ++ qn ++ ": ",
      ". Please check your API configuration and try again.", ?_⟩
    simp [extractFallback, String.append_assoc]
  · intro msg
    refine ⟨"Error solving Question " ++ qn ++ ": ",
      ". \n\nOriginal extracted content:\n",
      "\n\nPlease check your API configuration and try again.", ?_⟩
    simp [solveFallback, String.append_assoc]

/-- Concrete instances of `C2_failure_placeholder`: a missing key, and a
malformed payload with one stored image for the question. -/
theorem C2_failure_placeholder_witness :
    extract ⟨none, [], APIResponse.malformed⟩ "7" =
      extractFallback "7" "Please configure your Together AI API key first" ∧
    solve ⟨some "k", [⟨"img", some "7"⟩], APIResponse.malformed⟩ "7" "TXT" =
      solveFallback "7" "Invalid response format from API" "TXT" :=
  ⟨((C2_failure_placeholder ⟨none, [], APIResponse.malformed⟩ "7" "x").1 (by decide)).1,
   ((C2_failure_placeholder ⟨some "k", [⟨"img", some "7"⟩], APIResponse.malformed⟩
      "7" "TXT").2.2.2.1 rfl (by decide) (by decide)).2⟩

/-! ### Theorems: grouping of images without a question number (claim C10) -/

/-- **C10** fails as literally stated: `getQuestionImages "No Q#"` does not
return *exactly* the images whose `questionNumber` is absent or empty.  In a
store holding one image with an absent question number and one whose
`questionNumber` is the literal string `"No Q#"`, the call returns both,
while only the first is such an image. -/
theorem C10_counterexample :
    getQuestionImages "No Q#" [⟨"imgA", none⟩, ⟨"imgB", some "No Q#"⟩] ≠
      List.filter
        (fun img => decide (img.questionNumber = none ∨ img.questionNumber = some ""))
        [⟨"imgA", none⟩, ⟨"imgB", some "No Q#"⟩] := by
  decide

/-- **C10 (amended).** Every stored image whose `questionNumber` is absent or
empty is assigned the identifier `"No Q#"`; all images assigned that
identifier form one single entry named `"No Q#"` in the registry key list
built by `renderQuestionButtons` (so it is processed like any other
question), and `getQuestionImages "No Q#"` returns exactly the stored images
assigned `"No Q#"` — those whose `questionNumber` is absent, empty, or the
literal string `"No Q#"`. -/
theorem C10_noq_grouping (images : List StoredImage) :
    (∀ img ∈ images, img.questionNumber = none ∨ img.questionNumber = some "" →
      qnOrDefault img.questionNumber = "No Q#") ∧
    getQuestionImages "No Q#" images =
      images.filter (fun img => qnOrDefault img.questionNumber == "No Q#") ∧
    ((∃ img ∈ images, qnOrDefault img.questionNumber = "No Q#") →
      (uniqueKeys images).count "No Q#" = 1) := by
  refine ⟨?_, rfl, ?_⟩
  · rintro img _ (h | h) <;> simp [qnOrDefault, h]
  · intro hex
    exact List.count_eq_one_of_mem (uniqueKeys_nodup images)
      ((mem_uniqueKeys images "No Q#").mpr hex)

/-- Concrete instance of `C10_noq_grouping` on a two-image store. -/
theorem C10_noq_grouping_witness :
    qnOrDefault (StoredImage.mk "imgA" none).questionNumber = "No Q#" ∧
    (uniqueKeys [⟨"imgA", none⟩, ⟨"imgB", some "3"⟩]).count "No Q#" = 1 :=
  ⟨(C10_noq_grouping [⟨"imgA", none⟩, ⟨"imgB", some "3"⟩]).1 ⟨"imgA", none⟩
      (by decide) (Or.inl rfl),
   (C10_noq_grouping [⟨"imgA", none⟩, ⟨"imgB", some "3"⟩]).2.2
      ⟨⟨"imgA", none⟩, by decide⟩⟩

/-! ### Theorems: gate FIFO order (claim C4) -/

theorem gate_fifo_step (s : GateState)
    (h : s.dispatched.map Prod.snd ++ s.apiCallQueue = s.submitted)
    (e : GateEv) (hne : e ≠ GateEv.reset) :
    (gateStep s e).dispatched.map Prod.snd ++ (gateStep s e).apiCallQueue =
      (gateStep s e).submitted := by
  cases e with
  | reset => exact absurd rfl hne
  | submit =>
    by_cases hf : s.isProcessingQueue = true
    · simp only [gateStep, gateSubmit, if_pos hf]
      simp [← List.append_assoc, h]
    · cases hqq : s.apiCallQueue with
      | nil =>
        rw [hqq] at h
        simp only [gateStep, gateSubmit, if_neg hf, hqq, List.nil_append,
          List.map_append, List.map_cons, List.map_nil]
        simp only [List.append_nil] at h ⊢
        rw [h]
      | cons a t =>
        rw [hqq] at h
        simp only [gateStep, gateSubmit, if_neg hf, hqq, List.cons_append,
          List.map_append, List.map_cons, List.map_nil]
        calc (s.dispatched.map Prod.snd ++ [a]) ++ (t ++ [s.nextCallId])
            = (s.dispatched.map Prod.snd ++ (a :: t)) ++ [s.nextCallId] := by simp
          _ = s.submitted ++ [s.nextCallId] := by rw [h]
  | complete loopId =>
    simp only [gateStep, gateComplete]
    by_cases hl : loopId ∈ s.drainLoops
    · simp only [hl, if_true]
      cases hq : s.apiCallQueue with
      | nil => simpa [hq] using h
      | cons callId rest =>
        simp only [List.map_append, List.map_cons, List.map_nil]
        calc (s.dispatched.map Prod.snd ++ [callId]) ++ rest
            = s.dispatched.map Prod.snd ++ (callId :: rest) := by simp
          _ = s.submitted := by rw [← hq, h]
    · simpa [hl] using h

theorem gate_fifo_exec (evs : List GateEv) (hres : ∀ e ∈ evs, e ≠ GateEv.reset) :
    ∀ s : GateState, s.dispatched.map Prod.snd ++ s.apiCallQueue = s.submitted →
      (gateExec s evs).dispatched.map Prod.snd ++ (gateExec s evs).apiCallQueue =
        (gateExec s evs).submitted := by
  induction evs with
  | nil => intro s h; exact h
  | cons e es ih =>
    intro s h
    exact ih (fun e he => hres e (by simp [he])) _
      (gate_fifo_step s h e (hres e (by simp)))

/-- **C4.** For every sequence of submissions to `rateLimitedAPICall` (and
completions of dispatched calls, with no reset), the call identifiers
dispatched by the drain loop followed by those still queued equal the
submission log; in particular the dispatch order is a prefix of — and once
the queue drains, equal to — the submission order, independent of which
caller submitted each call (calls are opaque identifiers). -/
theorem C4_fifo_order (evs : List GateEv) (hres : ∀ e ∈ evs, e ≠ GateEv.reset) :
    (gateExec gateInit evs).dispatched.map Prod.snd ++ (gateExec gateInit evs).apiCallQueue
      = (gateExec gateInit evs).submitted ∧
    (gateExec gateInit evs).dispatched.map Prod.snd <+: (gateExec gateInit evs).submitted := by
  have h := gate_fifo_exec evs hres gateInit (by simp [gateInit])
  exact ⟨h, ⟨_, h⟩⟩

/-- Concrete instance of `C4_fifo_order`: three submissions interleaved with
completions dispatch in submission order. -/
theorem C4_fifo_order_witness :
    (gateExec gateInit
        [GateEv.submit, GateEv.submit, GateEv.complete 0, GateEv.submit,
         GateEv.complete 0, GateEv.complete 0]).dispatched.map Prod.snd =
      [0, 1, 2] ∧
    (gateExec gateInit
        [GateEv.submit, GateEv.submit, GateEv.complete 0, GateEv.submit,
         GateEv.complete 0, GateEv.complete 0]).dispatched.map Prod.snd <+:
      (gateExec gateInit
        [GateEv.submit, GateEv.submit, GateEv.complete 0, GateEv.submit,
         GateEv.complete 0, GateEv.complete 0]).submitted :=
  ⟨by decide,
   (C4_fifo_order
      [GateEv.submit, GateEv.submit, GateEv.complete 0, GateEv.submit,
       GateEv.complete 0, GateEv.complete 0] (by decide)).2⟩

/-! ### Theorems: drain-loop multiplicity (claim C9) -/

/-- **C9** fails as stated: the single-drain-loop property does not survive an
`initializeProcessing` reset.  Submit a call (a drain loop starts and
suspends awaiting that call), reset (`apiCallQueue.length = 0;
isProcessingQueue = false` — the suspended loop is untouched), submit again:
since the flag was cleared, a second drain loop starts while the first is
still live, so two drain loops are active at once. -/
theorem C9_counterexample :
    ¬((gateExec gateInit [GateEv.submit, GateEv.reset, GateEv.submit]).drainLoops.length
        ≤ 1) := by
  decide

theorem gate_single_loop_step (s : GateState)
    (h1 : s.isProcessingQueue = true → s.drainLoops.length = 1)
    (h2 : s.isProcessingQueue = false → s.drainLoops = [])
    (e : GateEv) (hne : e ≠ GateEv.reset) :
    ((gateStep s e).isProcessingQueue = true → (gateStep s e).drainLoops.length = 1) ∧
    ((gateStep s e).isProcessingQueue = false → (gateStep s e).drainLoops = []) := by
  cases e with
  | reset => exact absurd rfl hne
  | submit =>
    by_cases hf : s.isProcessingQueue = true
    · simp only [gateStep, gateSubmit, if_pos hf]
      exact ⟨fun _ => h1 hf, fun hc => by rw [hf] at hc; cases hc⟩
    · have hff : s.isProcessingQueue = false := by
        cases hfv : s.isProcessingQueue
        · rfl
        · exact absurd hfv hf
      have hl : s.drainLoops = [] := h2 hff
      cases hqq : s.apiCallQueue with
      | nil =>
        simp only [gateStep, gateSubmit, if_neg hf, hqq, List.nil_append]
        exact ⟨fun _ => by simp [hl], fun hc => by cases hc⟩
      | cons a t =>
        simp only [gateStep, gateSubmit, if_neg hf, hqq, List.cons_append]
        exact ⟨fun _ => by simp [hl], fun hc => by cases hc⟩
  | complete loopId =>
    by_cases hmem : loopId ∈ s.drainLoops
    · have hf : s.isProcessingQueue = true := by
        cases hfv : s.isProcessingQueue
        · rw [h2 hfv] at hmem; cases hmem
        · rfl
      cases hqq : s.apiCallQueue with
      | nil =>
        simp only [gateStep, gateComplete, if_pos hmem, hqq]
        constructor
        · intro hc
          cases hc
        intro _
        have : s.drainLoops.length = 1 := h1 hf
        cases hd : s.drainLoops with
        | nil => simp [hd]
        | cons x xs =>
          rw [hd] at this
          have hxs : xs = [] := by
            simpa using this
          rw [hd, hxs] at hmem
          have : loopId = x := by simpa using hmem
          simp [hd, hxs, this, List.erase_cons]
      | cons a t =>
        simp only [gateStep, gateComplete, if_pos hmem, hqq]
        exact ⟨fun _ => h1 hf, fun hc => by rw [hf] at hc; cases hc⟩
    · simp only [gateStep, gateComplete, if_neg hmem]
      exact ⟨h1, h2⟩

theorem gate_single_loop_exec (evs : List GateEv) (hres : ∀ e ∈ evs, e ≠ GateEv.reset) :
    ∀ s : GateState,
      (s.isProcessingQueue = true → s.drainLoops.length = 1) →
      (s.isProcessingQueue = false → s.drainLoops = []) →
      ((gateExec s evs).isProcessingQueue = true →
        (gateExec s evs).drainLoops.length = 1) ∧
      ((gateExec s evs).isProcessingQueue = false → (gateExec s evs).drainLoops = []) := by
  induction evs with
  | nil => intro s h1 h2; exact ⟨h1, h2⟩
  | cons e es ih =>
    intro s h1 h2
    have hstep := gate_single_loop_step s h1 h2 e (hres e (by simp))
    exact ih (fun e he => hres e (by simp [he])) _ hstep.1 hstep.2

/-- **C9 (amended).** In every execution that contains no
`initializeProcessing` reset, at most one drain loop is active at every
point, and the `isProcessingQueue` flag is set exactly while one is: a
submission made while the loop is draining is appended to the queue and
processed by that same loop rather than starting a second one.  (The
unamended claim, quantified over resets as well, is refuted by
`C9_counterexample`.) -/
theorem C9_single_drain_loop (evs : List GateEv) (hres : ∀ e ∈ evs, e ≠ GateEv.reset) :
    (gateExec gateInit evs).drainLoops.length ≤ 1 ∧
    ((gateExec gateInit evs).isProcessingQueue = true ↔
      (gateExec gateInit evs).drainLoops ≠ []) := by
  have h := gate_single_loop_exec evs hres gateInit (by simp [gateInit]) (fun _ => rfl)
  constructor
  · cases hfv : (gateExec gateInit evs).isProcessingQueue
    · rw [h.2 hfv]; simp
    · rw [h.1 hfv]
  · constructor
    · intro hf
      simp only [ne_eq]
      intro hc
      have := h.1 hf
      simp [hc] at this
    · intro hne
      cases hfv : (gateExec gateInit evs).isProcessingQueue
      · exact absurd (h.2 hfv) hne
      · rfl

/-- Concrete instance of `C9_single_drain_loop` on a reset-free trace. -/
theorem C9_single_drain_loop_witness :
    (gateExec gateInit [GateEv.submit, GateEv.submit, GateEv.complete 0,
        GateEv.complete 0]).drainLoops.length ≤ 1 :=
  (C9_single_drain_loop
    [GateEv.submit, GateEv.submit, GateEv.complete 0, GateEv.complete 0]
    (by decide)).1

/-! ### The pipeline scheduler (`fillBuffer` / `processQuestion` /
`initializeProcessing`, src/images.js:552-666)

The scheduler state carries the structures of the source: `questionStates`
(a `Map` from question number to lifecycle state), `processingBuffer` (a
`Set`, here a duplicate-free list), `questionData` (a `Map` to
`{extractedText, solvedText}`), `allQuestions`, and the suspended
`processQuestion` tasks.  A task is suspended either at
`await extract(...)` (src/images.js:564) or at `await solve(...)`
(src/images.js:580); everything between two suspension points runs
synchronously and atomically.  Events are the resumption of a task with the
text its awaited call produced (the client never rejects, claim C2), the
resumption of a task whose synchronous continuation throws (the defensive
catch of src/images.js:602-608 — e.g. the `TypeError` of
`data.extractedText = ...` when `questionData.get` returned `undefined`
after a reset), and the testing reset button (src/images.js:773-785). -/

/-- The state literals of `questionStates` (src/images.js:219): the source
stores `'extracted'` for the stage the UI labels `EXTRACTING`. -/
inductive QState
  | unsolved
  | extracted
  | solving
  | solved
deriving DecidableEq

/-- One `questionData` record: `{ extractedText, solvedText }`. -/
structure QData where
  extractedText : Option String
  solvedText : Option String
deriving DecidableEq

/-- The two suspension points of `processQuestion`. -/
inductive PC
  | awaitingExtract
  | awaitingSolve
deriving DecidableEq

structure QTask where
  qid : String
  pc : PC
deriving DecidableEq

structure Sched where
  allQuestions : List String
  questionStates : List (String × QState)
  processingBuffer : List String
  questionData : List (String × QData)
  tasks : List (Nat × QTask)
  nextTid : Nat
deriving DecidableEq

/-- `BUFFER_SIZE` (src/images.js:208). -/
def BUFFER_SIZE : Nat := 3

def stateOf (s : Sched) (q : String) : Option QState := alookup s.questionStates q

def dataOf (s : Sched) (q : String) : Option QData := alookup s.questionData q

def solvedTextOf (s : Sched) (q : String) : Option String :=
  (dataOf s q).bind QData.solvedText

/-- Admission of one unsolved question (src/images.js:627-634 together with
`processQuestion`'s synchronous prefix, src/images.js:556-561): `Set.add` it
to the buffer, initialize its `questionData` record, set its state to
`'extracted'`, and spawn its task, suspended at the `extract` await. -/
def admitOne (s : Sched) (q : String) : Sched :=
  { s with
    processingBuffer := insertKey s.processingBuffer q,
    questionData := aset s.questionData q ⟨none, none⟩,
    questionStates := aset s.questionStates q QState.extracted,
    tasks := s.tasks ++ [(s.nextTid, ⟨q, PC.awaitingExtract⟩)],
    nextTid := s.nextTid + 1 }

/-- The admission loop of `fillBuffer` (src/images.js:623-636): scan the
remaining questions, and while the `added` budget lasts admit each
`'unsolved'` one. -/
def admitLoop : Nat → List String → Sched → Sched
  | _, [], s => s
  | avail, q :: qs, s =>
    if avail = 0 then s
    else if stateOf s q = some QState.unsolved then
      admitLoop (avail - 1) qs (admitOne s q)
    else admitLoop avail qs s

/-- `fillBuffer` (src/images.js:614-641): no-op when
`BUFFER_SIZE - processingBuffer.size <= 0` (truncated subtraction makes the
Nat difference 0 exactly then), otherwise admit up to that many unsolved
questions in `allQuestions` order. -/
def fillBuffer (s : Sched) : Sched :=
  if BUFFER_SIZE - s.processingBuffer.length = 0 then s
  else admitLoop (BUFFER_SIZE - s.processingBuffer.length) s.allQuestions s

/-- `initializeProcessing` (src/images.js:646-666): clear the state map and
the buffer (the rate-limiter fields live in the gate model), mark every
question of `allQuestions` as `'unsolved'`, and call `fillBuffer` once.
`questionData` and suspended tasks are untouched. -/
def initializeProcessing (s : Sched) : Sched :=
  fillBuffer
    { s with
      questionStates := s.allQuestions.map (fun q => (q, QState.unsolved)),
      processingBuffer := [] }

/-- The reset button's handler (src/images.js:773-785): additionally clears
`questionData`, then calls `initializeProcessing`. -/
def resetProcessing (s : Sched) : Sched :=
  initializeProcessing
    { s with questionData := [], processingBuffer := [], questionStates := [] }

def findTask (s : Sched) (tid : Nat) : Option QTask :=
  (s.tasks.find? (fun p => p.1 = tid)).map Prod.snd

def removeTask (s : Sched) (tid : Nat) : List (Nat × QTask) :=
  s.tasks.filter (fun p => p.1 ≠ tid)

/-- The catch block of `processQuestion` (src/images.js:602-608): delete the
question from the buffer, call `fillBuffer`; `questionStates` is not
touched.  The failed task is finished. -/
def catchHandler (s : Sched) (tid : Nat) (q : String) : Sched :=
  fillBuffer
    { s with processingBuffer := s.processingBuffer.erase q,
             tasks := removeTask s tid }

/-- Scheduler events: `resumeExtract tid text` resumes task `tid` at the
`extract` await with result `text`; `resumeSolve` likewise at the `solve`
await; `fault tid` resumes a task whose continuation throws before its next
suspension (handled by the catch block); `reset` is the reset button. -/
inductive Ev
  | resumeExtract (tid : Nat) (text : String)
  | resumeSolve (tid : Nat) (text : String)
  | fault (tid : Nat)
  | reset
deriving DecidableEq

/-- One scheduler step: the synchronous continuation of `processQuestion`
after the corresponding suspension point (src/images.js:564-600), or the
catch block, or the reset.  On `resumeExtract`: record `extractedText`
(a `TypeError` lands in the catch block when the `questionData` record is
gone), return if the question left the buffer during the await, else set
state `'solving'` and suspend at the `solve` await.  On `resumeSolve`:
record `solvedText`, return if evicted, else set state `'solved'`, delete
the question from the buffer and call `fillBuffer`. -/
def step (s : Sched) : Ev → Sched
  | .resumeExtract tid text =>
    match findTask s tid with
    | some ⟨q, PC.awaitingExtract⟩ =>
      match dataOf s q with
      | none => catchHandler s tid q
      | some d =>
        if q ∈ s.processingBuffer then
          { s with
            questionData := aset s.questionData q { d with extractedText := some text },
            questionStates := aset s.questionStates q QState.solving,
            tasks := s.tasks.map (fun p =>
              if p.1 = tid then (p.1, ⟨q, PC.awaitingSolve⟩) else p) }
        else
          { s with
            questionData := aset s.questionData q { d with extractedText := some text },
            tasks := removeTask s tid }
    | _ => s
  | .resumeSolve tid text =>
    match findTask s tid with
    | some ⟨q, PC.awaitingSolve⟩ =>
      match dataOf s q with
      | none => catchHandler s tid q
      | some d =>
        if q ∈ s.processingBuffer then
          fillBuffer
            { s with
              questionData := aset s.questionData q { d with solvedText := some text },
              questionStates := aset s.questionStates q QState.solved,
              processingBuffer := s.processingBuffer.erase q,
              tasks := removeTask s tid }
        else
          { s with
            questionData := aset s.questionData q { d with solvedText := some text },
            tasks := removeTask s tid }
    | _ => s
  | .fault tid =>
    match findTask s tid with
    | some ⟨q, _⟩ => catchHandler s tid q
    | none => s
  | .reset => resetProcessing s

def exec (s : Sched) : List Ev → Sched
  | [] => s
  | e :: es => exec (step s e) es

/-- The state after page load: `renderQuestionButtons` sets `allQuestions`
and calls `initializeProcessing` (src/images.js:692-713). -/
def initState (qs : List String) : Sched :=
  initializeProcessing
    { allQuestions := qs, questionStates := [], processingBuffer := [],
      questionData := [], tasks := [], nextTid := 0 }

/-- Rank of a lifecycle state along the chain
`unsolved → extracted → solving → solved`. -/
def rank : QState → Nat
  | .unsolved => 0
  | .extracted => 1
  | .solving => 2
  | .solved => 3

def rankO : Option QState → Nat
  | none => 0
  | some st => rank st

/-! ### Theorems: buffer capacity (claim C5) -/

theorem admitLoop_length_le (qs : List String) :
    ∀ (avail : Nat) (s : Sched),
      (admitLoop avail qs s).processingBuffer.length ≤
        s.processingBuffer.length + avail := by
  induction qs with
  | nil => intro avail s; simp [admitLoop]
  | cons q qs ih =>
    intro avail s
    by_cases ha : avail = 0
    · simp [admitLoop, ha]
    · by_cases hu : stateOf s q = some QState.unsolved
      · simp only [admitLoop, if_neg ha, if_pos hu]
        refine le_trans (ih _ _) ?_
        have hlen : (admitOne s q).processingBuffer.length ≤
            s.processingBuffer.length + 1 := by
          simp only [admitOne, insertKey]
          by_cases hmem : q ∈ s.processingBuffer
          · simp only [if_pos hmem]
            omega
          · simp only [if_neg hmem, List.length_append, List.length_cons,
              List.length_nil]
            omega
        omega
      · simp only [admitLoop, if_neg ha, if_neg hu]
        exact le_trans (ih _ _) (by omega)

theorem fillBuffer_length_le (s : Sched) (h : s.processingBuffer.length ≤ BUFFER_SIZE) :
    (fillBuffer s).processingBuffer.length ≤ BUFFER_SIZE := by
  unfold fillBuffer
  by_cases h0 : BUFFER_SIZE - s.processingBuffer.length = 0
  · simpa [h0]
  · simp only [if_neg h0]
    have := admitLoop_length_le s.allQuestions (BUFFER_SIZE - s.processingBuffer.length) s
    omega

theorem catchHandler_length_le (s : Sched) (tid : Nat) (q : String)
    (h : s.processingBuffer.length ≤ BUFFER_SIZE) :
    (catchHandler s tid q).processingBuffer.length ≤ BUFFER_SIZE := by
  refine fillBuffer_length_le _ ?_
  exact le_trans (s.processingBuffer.erase_sublist q).length_le h

theorem step_length_le (s : Sched) (e : Ev)
    (h : s.processingBuffer.length ≤ BUFFER_SIZE) :
    (step s e).processingBuffer.length ≤ BUFFER_SIZE := by
  cases e with
  | resumeExtract tid text =>
    rcases hft : findTask s tid with _ | ⟨q, pc⟩
    · simpa [step, hft]
    · cases pc with
      | awaitingSolve => simpa [step, hft]
      | awaitingExtract =>
        rcases hd : dataOf s q with _ | d
        · simpa [step, hft, hd] using catchHandler_length_le s tid q h
        · by_cases hmem : q ∈ s.processingBuffer
          · simpa [step, hft, hd, hmem]
          · simpa [step, hft, hd, hmem]
  | resumeSolve tid text =>
    rcases hft : findTask s tid with _ | ⟨q, pc⟩
    · simpa [step, hft]
    · cases pc with
      | awaitingExtract => simpa [step, hft]
      | awaitingSolve =>
        rcases hd : dataOf s q with _ | d
        · simpa [step, hft, hd] using catchHandler_length_le s tid q h
        · by_cases hmem : q ∈ s.processingBuffer
          · simp only [step, hft, hd, if_pos hmem]
            refine fillBuffer_length_le _ ?_
            exact le_trans (s.processingBuffer.erase_sublist q).length_le h
          · simpa [step, hft, hd, hmem]
  | fault tid =>
    rcases hft : findTask s tid with _ | ⟨q, pc⟩
    · simpa [step, hft]
    · simpa [step, hft] using catchHandler_length_le s tid q h
  | reset =>
    simp only [step, resetProcessing, initializeProcessing]
    exact fillBuffer_length_le _ (by simp [BUFFER_SIZE])

theorem exec_length_le (evs : List Ev) :
    ∀ s : Sched, s.processingBuffer.length ≤ BUFFER_SIZE →
      (exec s evs).processingBuffer.length ≤ BUFFER_SIZE := by
  induction evs with
  | nil => intro s h; exact h
  | cons e es ih => intro s h; exact ih _ (step_length_le s e h)

/-- **C5.** For every initial question list and every sequence of scheduler
events (admissions by `fillBuffer`, completions, faults, resets), the size
of the processing buffer never exceeds `BUFFER_SIZE = 3`. -/
theorem C5_buffer_capacity (qs : List String) (evs : List Ev) :
    (exec (initState qs) evs).processingBuffer.length ≤ BUFFER_SIZE := by
  refine exec_length_le evs _ ?_
  unfold initState initializeProcessing
  exact fillBuffer_length_le _ (by simp [BUFFER_SIZE])

/-! ### Basic facts about admissions -/

theorem stateOf_admitOne_self (s : Sched) (q : String) :
    stateOf (admitOne s q) q = some QState.extracted := by
  simp [admitOne, stateOf, alookup_aset_self]

theorem stateOf_admitOne_other (s : Sched) (q r : String) (h : r ≠ q) :
    stateOf (admitOne s q) r = stateOf s r := by
  simp [admitOne, stateOf, alookup_aset_other _ _ _ _ h]

theorem dataOf_admitOne_self (s : Sched) (q : String) :
    dataOf (admitOne s q) q = some ⟨none, none⟩ := by
  simp [admitOne, dataOf, alookup_aset_self]

theorem dataOf_admitOne_other (s : Sched) (q r : String) (h : r ≠ q) :
    dataOf (admitOne s q) r = dataOf s r := by
  simp [admitOne, dataOf, alookup_aset_other _ _ _ _ h]

theorem stateOf_admitLoop (qs : List String) :
    ∀ (avail : Nat) (s : Sched) (r : String),
      stateOf (admitLoop avail qs s) r = stateOf s r ∨
        (stateOf s r = some QState.unsolved ∧
          stateOf (admitLoop avail qs s) r = some QState.extracted) := by
  induction qs with
  | nil => intro a s r; left; rfl
  | cons q qs ih =>
    intro a s r
    by_cases ha : a = 0
    · left; simp [admitLoop, ha]
    · by_cases hu : stateOf s q = some QState.unsolved
      · simp only [admitLoop, if_neg ha, if_pos hu]
        by_cases hr : r = q
        · subst hr
          rcases ih (a - 1) (admitOne s r) r with h | ⟨h1, h2⟩
          · right
            exact ⟨hu, by rw [h, stateOf_admitOne_self]⟩
          · rw [stateOf_admitOne_self] at h1
            simp at h1
        · rcases ih (a - 1) (admitOne s q) r with h | ⟨h1, h2⟩
          · left
            rw [h, stateOf_admitOne_other _ _ _ hr]
          · right
            rw [stateOf_admitOne_other _ _ _ hr] at h1
            exact ⟨h1, h2⟩
      · simp only [admitLoop, if_neg ha, if_neg hu]
        exact ih a s r

theorem dataOf_admitLoop (qs : List String) :
    ∀ (avail : Nat) (s : Sched) (r : String),
      dataOf (admitLoop avail qs s) r = dataOf s r ∨
        dataOf (admitLoop avail qs s) r = some ⟨none, none⟩ := by
  induction qs with
  | nil => intro a s r; left; rfl
  | cons q qs ih =>
    intro a s r
    by_cases ha : a = 0
    · left; simp [admitLoop, ha]
    · by_cases hu : stateOf s q = some QState.unsolved
      · simp only [admitLoop, if_neg ha, if_pos hu]
        by_cases hr : r = q
        · subst hr
          rcases ih (a - 1) (admitOne s r) r with h | h
          · right
            rw [h, dataOf_admitOne_self]
          · right; exact h
        · rcases ih (a - 1) (admitOne s q) r with h | h
          · left
            rw [h, dataOf_admitOne_other _ _ _ hr]
          · right; exact h
      · simp only [admitLoop, if_neg ha, if_neg hu]
        exact ih a s r

theorem mem_admitLoop_buffer (qs : List String) :
    ∀ (avail : Nat) (s : Sched) (r : String),
      r ∈ (admitLoop avail qs s).processingBuffer →
        r ∈ s.processingBuffer ∨ stateOf s r = some QState.unsolved := by
  induction qs with
  | nil => intro a s r h; left; exact h
  | cons q qs ih =>
    intro a s r h
    by_cases ha : a = 0
    · left
      simp only [admitLoop, if_pos ha] at h
      exact h
    · by_cases hu : stateOf s q = some QState.unsolved
      · simp only [admitLoop, if_neg ha, if_pos hu] at h
        rcases ih _ _ _ h with hmem | hunsolved
        · simp only [admitOne] at hmem
          rcases (mem_insertKey _ _ _).mp hmem with h' | rfl
          · left; exact h'
          · right; exact hu
        · by_cases hr : r = q
          · subst hr
            right; exact hu
          · rw [stateOf_admitOne_other _ _ _ hr] at hunsolved
            right; exact hunsolved
      · simp only [admitLoop, if_neg ha, if_neg hu] at h
        exact ih _ _ _ h

theorem nextTid_admitLoop (qs : List String) :
    ∀ (avail : Nat) (s : Sched), s.nextTid ≤ (admitLoop avail qs s).nextTid := by
  induction qs with
  | nil => intro a s; exact le_refl _
  | cons q qs ih =>
    intro a s
    by_cases ha : a = 0
    · simp [admitLoop, ha]
    · by_cases hu : stateOf s q = some QState.unsolved
      · simp only [admitLoop, if_neg ha, if_pos hu]
        refine le_trans ?_ (ih _ _)
        simp [admitOne]
      · simp only [admitLoop, if_neg ha, if_neg hu]
        exact ih a s

theorem findTask_admitOne (s : Sched) (q : String) (tid : Nat)
    (h : tid < s.nextTid) : findTask (admitOne s q) tid = findTask s tid := by
  simp only [findTask, admitOne, List.find?_append]
  cases hf : s.tasks.find? (fun p => p.1 = tid) with
  | some p => simp
  | none =>
    have hne : ¬(s.nextTid = tid) := by omega
    simp [List.find?, hne]

theorem findTask_admitLoop (qs : List String) :
    ∀ (avail : Nat) (s : Sched) (tid : Nat), tid < s.nextTid →
      findTask (admitLoop avail qs s) tid = findTask s tid := by
  induction qs with
  | nil => intro a s tid _; rfl
  | cons q qs ih =>
    intro a s tid htid
    by_cases ha : a = 0
    · simp [admitLoop, ha]
    · by_cases hu : stateOf s q = some QState.unsolved
      · simp only [admitLoop, if_neg ha, if_pos hu]
        rw [ih _ _ _ (by simp only [admitOne]; omega), findTask_admitOne _ _ _ htid]
      · simp only [admitLoop, if_neg ha, if_neg hu]
        exact ih _ _ _ htid

theorem stateOf_fillBuffer (s : Sched) (r : String) :
    stateOf (fillBuffer s) r = stateOf s r ∨
      (stateOf s r = some QState.unsolved ∧
        stateOf (fillBuffer s) r = some QState.extracted) := by
  unfold fillBuffer
  by_cases h0 : BUFFER_SIZE - s.processingBuffer.length = 0
  · left; simp [h0]
  · simp only [if_neg h0]
    exact stateOf_admitLoop _ _ _ _

theorem dataOf_fillBuffer (s : Sched) (r : String) :
    dataOf (fillBuffer s) r = dataOf s r ∨
      dataOf (fillBuffer s) r = some ⟨none, none⟩ := by
  unfold fillBuffer
  by_cases h0 : BUFFER_SIZE - s.processingBuffer.length = 0
  · left; simp [h0]
  · simp only [if_neg h0]
    exact dataOf_admitLoop _ _ _ _

theorem mem_fillBuffer_buffer (s : Sched) (r : String)
    (h : r ∈ (fillBuffer s).processingBuffer) :
    r ∈ s.processingBuffer ∨ stateOf s r = some QState.unsolved := by
  unfold fillBuffer at h
  by_cases h0 : BUFFER_SIZE - s.processingBuffer.length = 0
  · left; simpa [h0] using h
  · rw [if_neg h0] at h
    exact mem_admitLoop_buffer _ _ _ _ h

theorem findTask_fillBuffer (s : Sched) (tid : Nat) (h : tid < s.nextTid) :
    findTask (fillBuffer s) tid = findTask s tid := by
  unfold fillBuffer
  by_cases h0 : BUFFER_SIZE - s.processingBuffer.length = 0
  · simp [h0]
  · simp only [if_neg h0]
    exact findTask_admitLoop _ _ _ _ h

theorem findTask_removeTask_self (s : Sched) (tid : Nat) :
    (removeTask s tid).find? (fun p => p.1 = tid) = none := by
  rw [List.find?_eq_none]
  intro p hp
  have := List.of_mem_filter hp
  simpa using this

theorem tid_lt_nextTid_of_findTask (s : Sched) (tid : Nat) (t : QTask)
    (hft : findTask s tid = some t) (htid : ∀ p ∈ s.tasks, p.1 < s.nextTid) :
    tid < s.nextTid := by
  unfold findTask at hft
  cases hfp : s.tasks.find? (fun p => p.1 = tid) with
  | none => rw [hfp] at hft; cases hft
  | some p =>
    have hmem : p ∈ s.tasks := List.mem_of_find?_eq_some hfp
    have hp : p.1 = tid := by simpa using List.find?_some hfp
    rw [← hp]
    exact htid p hmem

/-! ### Theorems: fault handling (claim C8) -/

/-- **C8.** For every failure that escapes the client's placeholder boundary
inside a `processQuestion` task (the `fault` event, handled by the catch
block of src/images.js:602-608), the task removes its question from the
buffer and invokes `fillBuffer` to backfill, and the question's state is
left as whatever it last reached — the handler never writes
`questionStates`, so in particular the state is not reverted to
`'unsolved'` and the buffer slot is freed for the next question. -/
theorem C8_fault_releases_slot (s : Sched) (tid : Nat) (q : String) (pc : PC)
    (hft : findTask s tid = some ⟨q, pc⟩)
    (hnd : s.processingBuffer.Nodup)
    (hq : stateOf s q ≠ some QState.unsolved) :
    step s (Ev.fault tid) =
      fillBuffer { s with processingBuffer := s.processingBuffer.erase q,
                          tasks := removeTask s tid } ∧
    q ∉ (step s (Ev.fault tid)).processingBuffer ∧
    stateOf (step s (Ev.fault tid)) q = stateOf s q := by
  have hstep : step s (Ev.fault tid) = catchHandler s tid q := by
    simp [step, hft]
  refine ⟨hstep, ?_, ?_⟩
  · rw [hstep]
    intro hmem
    rcases mem_fillBuffer_buffer _ _ hmem with hmem' | hst
    · exact absurd rfl ((List.Nodup.mem_erase_iff hnd).mp hmem').1
    · exact hq hst
  · rw [hstep]
    unfold catchHandler
    rcases stateOf_fillBuffer
        { s with processingBuffer := s.processingBuffer.erase q,
                 tasks := removeTask s tid } q with h | ⟨h1, h2⟩
    · exact h
    · exact absurd h1 hq

/-- Concrete instance of `C8_fault_releases_slot`: question `"a"` is mid-solve
when its task faults; the slot is released, `"b"` is admitted by the refill,
and `"a"` keeps state `'solving'`. -/
theorem C8_fault_releases_slot_witness :
    "a" ∉ (step ⟨["a", "b"], [("a", QState.solving), ("b", QState.unsolved)], ["a"],
        [("a", ⟨some "e", none⟩)], [(0, ⟨"a", PC.awaitingSolve⟩)], 1⟩
        (Ev.fault 0)).processingBuffer ∧
    stateOf (step ⟨["a", "b"], [("a", QState.solving), ("b", QState.unsolved)], ["a"],
        [("a", ⟨some "e", none⟩)], [(0, ⟨"a", PC.awaitingSolve⟩)], 1⟩
        (Ev.fault 0)) "a" =
      stateOf ⟨["a", "b"], [("a", QState.solving), ("b", QState.unsolved)], ["a"],
        [("a", ⟨some "e", none⟩)], [(0, ⟨"a", PC.awaitingSolve⟩)], 1⟩ "a" :=
  (C8_fault_releases_slot
    ⟨["a", "b"], [("a", QState.solving), ("b", QState.unsolved)], ["a"],
      [("a", ⟨some "e", none⟩)], [(0, ⟨"a", PC.awaitingSolve⟩)], 1⟩
    0 "a" PC.awaitingSolve (by decide) (by decide) (by decide)).2

/-! ### Theorems: eviction safety (claim C1) -/

/-- **C1.** If a question was evicted from the processing buffer while its
task was suspended at the `extract` await (so the eviction is observed at
the re-entry check of src/images.js:570), the resumed step never sets the
question's state to `'solved'`, never sets its `solvedText`, and finishes
the task, which therefore takes no further step.  This covers both the
normal re-entry (the `questionData` record still exists: the task records
`extractedText`, observes the eviction and returns) and the post-reset
re-entry in which the record is gone and the resulting `TypeError` lands in
the catch block. -/
theorem C1_eviction_abandons_task (s : Sched) (tid : Nat) (q text : String)
    (hft : findTask s tid = some ⟨q, PC.awaitingExtract⟩)
    (hq : q ∉ s.processingBuffer)
    (htid : ∀ p ∈ s.tasks, p.1 < s.nextTid) :
    solvedTextOf (step s (Ev.resumeExtract tid text)) q = solvedTextOf s q ∧
    (stateOf (step s (Ev.resumeExtract tid text)) q = some QState.solved →
      stateOf s q = some QState.solved) ∧
    findTask (step s (Ev.resumeExtract tid text)) tid = none := by
  have htlt : tid < s.nextTid := tid_lt_nextTid_of_findTask s tid _ hft htid
  rcases hd : dataOf s q with _ | d
  · -- `questionData.get` returned `undefined`: the catch block runs
    have hstep : step s (Ev.resumeExtract tid text) = catchHandler s tid q := by
      simp [step, hft, hd]
    have hdi : dataOf { s with processingBuffer := s.processingBuffer.erase q, tasks := removeTask s tid } q = none := hd
    refine ⟨?_, ?_, ?_⟩
    · rw [hstep]
      unfold catchHandler
      rcases dataOf_fillBuffer
          { s with processingBuffer := s.processingBuffer.erase q,
                   tasks := removeTask s tid } q with h | h
      · simp only [solvedTextOf, h, hdi, hd]
      · simp only [solvedTextOf, h, hd]
        rfl
    · rw [hstep]
      unfold catchHandler
      rcases stateOf_fillBuffer
          { s with processingBuffer := s.processingBuffer.erase q,
                   tasks := removeTask s tid } q with h | ⟨h1, h2⟩
      · intro hsolved
        rw [h] at hsolved
        exact hsolved
      · intro hsolved
        rw [h2] at hsolved
        cases hsolved
    · rw [hstep]
      unfold catchHandler
      rw [findTask_fillBuffer
        { s with processingBuffer := s.processingBuffer.erase q,
                 tasks := removeTask s tid } tid htlt]
      simp only [findTask, findTask_removeTask_self]
      rfl
  · -- normal re-entry: `extractedText` is recorded, then the eviction check
    -- returns before `solve` is ever awaited
    have hstep : step s (Ev.resumeExtract tid text) =
        { s with
          questionData := aset s.questionData q { d with extractedText := some text },
          tasks := removeTask s tid } := by
      simp [step, hft, hd, hq]
    refine ⟨?_, ?_, ?_⟩
    · rw [hstep]
      simp only [solvedTextOf]
      rw [hd]
      simp only [dataOf, alookup_aset_self]
      rfl
    · rw [hstep]
      exact fun h => h
    · rw [hstep]
      simp only [findTask, findTask_removeTask_self]
      rfl

/-- Concrete instance of `C1_eviction_abandons_task`: question `"a"`'s task
resumes from extraction after `"a"` was evicted; no `solvedText` appears,
the state stays `'solving'`-free of `'solved'`, and the task is gone. -/
theorem C1_eviction_abandons_task_witness :
    solvedTextOf (step ⟨["a"], [("a", QState.extracted)], [],
        [("a", ⟨none, none⟩)], [(0, ⟨"a", PC.awaitingExtract⟩)], 1⟩
        (Ev.resumeExtract 0 "t")) "a" =
      solvedTextOf ⟨["a"], [("a", QState.extracted)], [],
        [("a", ⟨none, none⟩)], [(0, ⟨"a", PC.awaitingExtract⟩)], 1⟩ "a" ∧
    (stateOf (step ⟨["a"], [("a", QState.extracted)], [],
        [("a", ⟨none, none⟩)], [(0, ⟨"a", PC.awaitingExtract⟩)], 1⟩
        (Ev.resumeExtract 0 "t")) "a" = some QState.solved →
      stateOf ⟨["a"], [("a", QState.extracted)], [],
        [("a", ⟨none, none⟩)], [(0, ⟨"a", PC.awaitingExtract⟩)], 1⟩ "a" =
        some QState.solved) ∧
    findTask (step ⟨["a"], [("a", QState.extracted)], [],
        [("a", ⟨none, none⟩)], [(0, ⟨"a", PC.awaitingExtract⟩)], 1⟩
        (Ev.resumeExtract 0 "t")) 0 = none :=
  C1_eviction_abandons_task
    ⟨["a"], [("a", QState.extracted)], [], [("a", ⟨none, none⟩)],
      [(0, ⟨"a", PC.awaitingExtract⟩)], 1⟩
    0 "a" "t" (by decide) (by decide) (by decide)

/-! ### Theorems: state monotonicity (claim C6) -/

/-- The invariant behind state monotonicity: the buffer is duplicate-free
(JS `Set`) and every buffered question is mid-pipeline, in state
`'extracted'` or `'solving'`. -/
def WFm (s : Sched) : Prop :=
  s.processingBuffer.Nodup ∧
    ∀ q ∈ s.processingBuffer,
      stateOf s q = some QState.extracted ∨ stateOf s q = some QState.solving

theorem WFm_admitOne (s : Sched) (q : String) (hW : WFm s) :
    WFm (admitOne s q) := by
  obtain ⟨hnd, hmem⟩ := hW
  constructor
  · exact insertKey_nodup _ _ hnd
  · intro r hr
    rcases (mem_insertKey _ _ _).mp hr with hr' | rfl
    · by_cases hrq : r = q
      · subst hrq
        left; exact stateOf_admitOne_self s r
      · rw [stateOf_admitOne_other _ _ _ hrq]
        exact hmem r hr'
    · left; exact stateOf_admitOne_self s r

theorem WFm_admitLoop (qs : List String) :
    ∀ (avail : Nat) (s : Sched), WFm s → WFm (admitLoop avail qs s) := by
  induction qs with
  | nil => intro a s hW; exact hW
  | cons q qs ih =>
    intro a s hW
    by_cases ha : a = 0
    · simpa [admitLoop, ha] using hW
    · by_cases hu : stateOf s q = some QState.unsolved
      · simp only [admitLoop, if_neg ha, if_pos hu]
        exact ih _ _ (WFm_admitOne s q hW)
      · simp only [admitLoop, if_neg ha, if_neg hu]
        exact ih _ _ hW

theorem WFm_fillBuffer (s : Sched) (hW : WFm s) : WFm (fillBuffer s) := by
  unfold fillBuffer
  by_cases h0 : BUFFER_SIZE - s.processingBuffer.length = 0
  · simpa [h0] using hW
  · simp only [if_neg h0]
    exact WFm_admitLoop _ _ _ hW

theorem WFm_erase_tasks (s : Sched) (q : String) (ts : List (Nat × QTask))
    (hW : WFm s) :
    WFm { s with processingBuffer := s.processingBuffer.erase q, tasks := ts } := by
  obtain ⟨hnd, hmem⟩ := hW
  exact ⟨hnd.erase q, fun r hr => hmem r (List.mem_of_mem_erase hr)⟩

theorem WFm_catchHandler (s : Sched) (tid : Nat) (q : String) (hW : WFm s) :
    WFm (catchHandler s tid q) :=
  WFm_fillBuffer _ (WFm_erase_tasks s q _ hW)

theorem WFm_initializeProcessing (s : Sched) : WFm (initializeProcessing s) := by
  refine WFm_fillBuffer _ ⟨List.nodup_nil, ?_⟩
  intro r hr
  cases hr

theorem WFm_step (s : Sched) (e : Ev) (hW : WFm s) : WFm (step s e) := by
  cases e with
  | resumeExtract tid text =>
    rcases hft : findTask s tid with _ | ⟨q, pc⟩
    · simpa [step, hft] using hW
    · cases pc with
      | awaitingSolve => simpa [step, hft] using hW
      | awaitingExtract =>
        rcases hd : dataOf s q with _ | d
        · simpa [step, hft, hd] using WFm_catchHandler s tid q hW
        · by_cases hmem : q ∈ s.processingBuffer
          · simp only [step, hft, hd, if_pos hmem]
            obtain ⟨hnd, hst⟩ := hW
            refine ⟨hnd, ?_⟩
            intro r hr
            by_cases hrq : r = q
            · subst hrq
              right
              simp [stateOf, alookup_aset_self]
            · have : stateOf s r = some QState.extracted ∨
                  stateOf s r = some QState.solving := hst r hr
              simpa [stateOf, alookup_aset_other _ _ _ _ hrq] using this
          · simp only [step, hft, hd, if_neg hmem]
            exact hW
  | resumeSolve tid text =>
    rcases hft : findTask s tid with _ | ⟨q, pc⟩
    · simpa [step, hft] using hW
    · cases pc with
      | awaitingExtract => simpa [step, hft] using hW
      | awaitingSolve =>
        rcases hd : dataOf s q with _ | d
        · simpa [step, hft, hd] using WFm_catchHandler s tid q hW
        · by_cases hmem : q ∈ s.processingBuffer
          · simp only [step, hft, hd, if_pos hmem]
            refine WFm_fillBuffer _ ?_
            obtain ⟨hnd, hst⟩ := hW
            refine ⟨hnd.erase q, ?_⟩
            intro r hr
            have hrq : r ≠ q ∧ r ∈ s.processingBuffer :=
              (List.Nodup.mem_erase_iff hnd).mp hr
            have : stateOf s r = some QState.extracted ∨
                stateOf s r = some QState.solving := hst r hrq.2
            simpa [stateOf, alookup_aset_other _ _ _ _ hrq.1] using this
          · simp only [step, hft, hd, if_neg hmem]
            exact hW
  | fault tid =>
    rcases hft : findTask s tid with _ | ⟨q, pc⟩
    · simpa [step, hft] using hW
    · simpa [step, hft] using WFm_catchHandler s tid q hW
  | reset =>
    exact WFm_initializeProcessing _

theorem WFm_exec (evs : List Ev) :
    ∀ s : Sched, WFm s → WFm (exec s evs) := by
  induction evs with
  | nil => intro s h; exact h
  | cons e es ih => intro s h; exact ih _ (WFm_step s e h)

theorem WFm_initState (qs : List String) : WFm (initState qs) :=
  WFm_initializeProcessing _

theorem rankO_le_three (x : Option QState) : rankO x ≤ 3 := by
  rcases x with _ | st
  · simp [rankO]
  · cases st <;> simp [rankO, rank]

theorem rank_fillBuffer (s : Sched) (q : String) :
    rankO (stateOf s q) ≤ rankO (stateOf (fillBuffer s) q) := by
  rcases stateOf_fillBuffer s q with h | ⟨h1, h2⟩
  · rw [h]
  · rw [h1, h2]
    simp [rankO, rank]

theorem rank_catchHandler (s : Sched) (tid : Nat) (q r : String) :
    rankO (stateOf s r) ≤ rankO (stateOf (catchHandler s tid q) r) := by
  unfold catchHandler
  exact rank_fillBuffer
    { s with processingBuffer := s.processingBuffer.erase q,
             tasks := removeTask s tid } r

theorem step_rank_mono (s : Sched) (e : Ev) (hW : WFm s) (hne : e ≠ Ev.reset)
    (r : String) : rankO (stateOf s r) ≤ rankO (stateOf (step s e) r) := by
  cases e with
  | reset => exact absurd rfl hne
  | resumeExtract tid text =>
    rcases hft : findTask s tid with _ | ⟨q, pc⟩
    · simp [step, hft]
    · cases pc with
      | awaitingSolve => simp [step, hft]
      | awaitingExtract =>
        rcases hd : dataOf s q with _ | d
        · simp only [step, hft, hd]
          exact rank_catchHandler s tid q r
        · by_cases hmem : q ∈ s.processingBuffer
          · simp only [step, hft, hd, if_pos hmem]
            by_cases hrq : r = q
            · subst hrq
              have hst : stateOf s r = some QState.extracted ∨
                  stateOf s r = some QState.solving := hW.2 r hmem
              have hnew : stateOf { s with
                  questionData := aset s.questionData r
                    { d with extractedText := some text },
                  questionStates := aset s.questionStates r QState.solving,
                  tasks := s.tasks.map (fun p =>
                    if p.1 = tid then (p.1, ⟨r, PC.awaitingSolve⟩) else p) } r =
                  some QState.solving := by
                simp [stateOf, alookup_aset_self]
              rw [hnew]
              rcases hst with h | h
              · rw [h]
                simp [rankO, rank]
              · rw [h]
            · have : stateOf { s with
                  questionData := aset s.questionData q
                    { d with extractedText := some text },
                  questionStates := aset s.questionStates q QState.solving,
                  tasks := s.tasks.map (fun p =>
                    if p.1 = tid then (p.1, ⟨q, PC.awaitingSolve⟩) else p) } r =
                  stateOf s r := by
                simp [stateOf, alookup_aset_other _ _ _ _ hrq]
              rw [this]
          · simp only [step, hft, hd, if_neg hmem]
            exact le_refl _
  | resumeSolve tid text =>
    rcases hft : findTask s tid with _ | ⟨q, pc⟩
    · simp [step, hft]
    · cases pc with
      | awaitingExtract => simp [step, hft]
      | awaitingSolve =>
        rcases hd : dataOf s q with _ | d
        · simp only [step, hft, hd]
          exact rank_catchHandler s tid q r
        · by_cases hmem : q ∈ s.processingBuffer
          · simp only [step, hft, hd, if_pos hmem]
            refine le_trans ?_ (rank_fillBuffer _ r)
            by_cases hrq : r = q
            · subst hrq
              have hnew : stateOf { s with
                  questionData := aset s.questionData r
                    { d with solvedText := some text },
                  questionStates := aset s.questionStates r QState.solved,
                  processingBuffer := s.processingBuffer.erase r,
                  tasks := removeTask s tid } r = some QState.solved := by
                simp [stateOf, alookup_aset_self]
              rw [hnew]
              refine le_trans (rankO_le_three _) ?_
              simp [rankO, rank]
            · have : stateOf { s with
                  questionData := aset s.questionData q
                    { d with solvedText := some text },
                  questionStates := aset s.questionStates q QState.solved,
                  processingBuffer := s.processingBuffer.erase q,
                  tasks := removeTask s tid } r = stateOf s r := by
                simp [stateOf, alookup_aset_other _ _ _ _ hrq]
              rw [this]
          · simp only [step, hft, hd, if_neg hmem]
            exact le_refl _
  | fault tid =>
    rcases hft : findTask s tid with _ | ⟨q, pc⟩
    · simp [step, hft]
    · simp only [step, hft]
      exact rank_catchHandler s tid q r

/-- **C6.** Along every execution from page load, every non-reset event moves
every question's state weakly forward along
`unsolved → extracted ('extracting') → solving → solved` — the rank of the
state never decreases, so the sequence of states a question takes is a
subsequence of that chain, and only a full registry reset
(`initializeProcessing`, the `reset` event) moves a state backward. -/
theorem C6_state_monotonic (qs : List String) (evs : List Ev) (e : Ev) (q : String)
    (hne : e ≠ Ev.reset) :
    rankO (stateOf (exec (initState qs) evs) q) ≤
      rankO (stateOf (step (exec (initState qs) evs) e) q) :=
  step_rank_mono _ e (WFm_exec evs _ (WFm_initState qs)) hne q

/-- Concrete instance of `C6_state_monotonic`: completing question `"1"`'s
extraction moves it from `'extracted'` (rank 1) to `'solving'` (rank 2). -/
theorem C6_state_monotonic_witness :
    rankO (stateOf (exec (initState ["1", "2"]) [Ev.resumeExtract 0 "e"]) "1") ≤
      rankO (stateOf (step (exec (initState ["1", "2"]) [Ev.resumeExtract 0 "e"])
        (Ev.resumeSolve 0 "s")) "1") :=
  C6_state_monotonic ["1", "2"] [Ev.resumeExtract 0 "e"] (Ev.resumeSolve 0 "s") "1"
    (by decide)

/-! ### Refill completeness (claim C7)

With no evictions (no resets, no faults) every awaited call resolves with
text (claim C2), so an in-flight task always takes its success path.
`runRound` resumes the oldest suspended task; `run n` iterates `n` rounds.
A measure argument shows `2 * K` rounds drive `K` questions to `'solved'`. -/

def pcWeight : PC → Nat
  | PC.awaitingExtract => 2
  | PC.awaitingSolve => 1

/-- Pending work: 2 per task still to extract, 1 per task still to solve,
2 per question still `'unsolved'`. -/
def sched_measure (s : Sched) : Nat :=
  (s.tasks.map (fun p => pcWeight p.2.pc)).sum +
    2 * s.allQuestions.countP (fun q => stateOf s q = some QState.unsolved)

/-- Resume the oldest suspended task (the head of the task list), with the
text its awaited client call produced. -/
def runRound (s : Sched) : Sched :=
  match s.tasks with
  | [] => s
  | (tid, t) :: _ =>
    match t.pc with
    | PC.awaitingExtract => step s (Ev.resumeExtract tid "extracted text")
    | PC.awaitingSolve => step s (Ev.resumeSolve tid "solution text")

def run : Nat → Sched → Sched
  | 0, s => s
  | n + 1, s => run n (runRound s)

theorem countP_update_of_nodup (l : List String) :
    ∀ (p1 p2 : String → Bool) (q : String), l.Nodup → q ∈ l → p1 q = true →
      p2 q = false → (∀ r ∈ l, r ≠ q → p1 r = p2 r) →
      l.countP p1 = l.countP p2 + 1 := by
  induction l with
  | nil => intro _ _ _ _ h; cases h
  | cons a l ih =>
    intro p1 p2 q hnd hq h1 h2 hoth
    rcases List.mem_cons.mp hq with rfl | hq'
    · have hnotin : q ∉ l := (List.nodup_cons.mp hnd).1
      have heq : l.countP p1 = l.countP p2 := by
        refine List.countP_congr ?_
        intro r hr
        simp [hoth r (List.mem_cons_of_mem _ hr) (fun hrq => hnotin (hrq ▸ hr))]
      rw [List.countP_cons, List.countP_cons, h1, h2, heq]
      simp
    · have hne : a ≠ q := fun h => (List.nodup_cons.mp hnd).1 (h ▸ hq')
      have ha : p1 a = p2 a := hoth a (by simp) hne
      rw [List.countP_cons, List.countP_cons, ha,
        ih p1 p2 q (List.nodup_cons.mp hnd).2 hq' h1 h2
          (fun r hr hrq => hoth r (List.mem_cons_of_mem _ hr) hrq)]
      omega

/-- The invariant of fault-free, reset-free scheduler runs. -/
structure SchedInv (s : Sched) : Prop where
  aqNodup : s.allQuestions.Nodup
  bufNodup : s.processingBuffer.Nodup
  perm : (s.tasks.map (fun p => p.2.qid)).Perm s.processingBuffer
  tidBound : ∀ p ∈ s.tasks, p.1 < s.nextTid
  tidNodup : (s.tasks.map Prod.fst).Nodup
  taskState : ∀ p ∈ s.tasks,
    (p.2.pc = PC.awaitingExtract → stateOf s p.2.qid = some QState.extracted) ∧
    (p.2.pc = PC.awaitingSolve → stateOf s p.2.qid = some QState.solving)
  dataDefined : ∀ q ∈ s.processingBuffer, dataOf s q ≠ none
  stateTotal : ∀ q ∈ s.allQuestions, stateOf s q ≠ none
  stateBack : ∀ q, stateOf s q = some QState.extracted ∨
      stateOf s q = some QState.solving → q ∈ s.processingBuffer
  bufSub : ∀ q ∈ s.processingBuffer, q ∈ s.allQuestions

/-- After a quiescent `fillBuffer`, a non-full buffer means no unsolved
question remains. -/
def Exhausted (s : Sched) : Prop :=
  s.processingBuffer.length < BUFFER_SIZE →
    ∀ q ∈ s.allQuestions, stateOf s q ≠ some QState.unsolved

theorem buffered_not_unsolved (s : Sched) (hW : SchedInv s) (q : String)
    (hq : q ∈ s.processingBuffer) : stateOf s q ≠ some QState.unsolved := by
  have hmap : q ∈ s.tasks.map (fun p => p.2.qid) := hW.perm.mem_iff.mpr hq
  rcases List.mem_map.mp hmap with ⟨p, hp, hpq⟩
  intro hu
  rcases hpc : p.2.pc with _ | _
  · have := (hW.taskState p hp).1 hpc
    rw [hpq, hu] at this
    cases this
  · have := (hW.taskState p hp).2 hpc
    rw [hpq, hu] at this
    cases this

theorem allQuestions_admitOne (s : Sched) (q : String) :
    (admitOne s q).allQuestions = s.allQuestions := rfl

theorem SchedInv_admitOne (s : Sched) (q : String) (hW : SchedInv s)
    (hq : q ∈ s.allQuestions) (hu : stateOf s q = some QState.unsolved) :
    SchedInv (admitOne s q) := by
  have hqnb : q ∉ s.processingBuffer := fun h => buffered_not_unsolved s hW q h hu
  have hbuf : (admitOne s q).processingBuffer = s.processingBuffer ++ [q] := by
    simp [admitOne, insertKey, hqnb]
  have hntid : s.nextTid ∉ s.tasks.map Prod.fst := by
    intro hmem
    rcases List.mem_map.mp hmem with ⟨p, hp, hpid⟩
    have := hW.tidBound p hp
    omega
  have hqidne : ∀ p ∈ s.tasks, p.2.qid ≠ q := by
    intro p hp heq
    rcases hpc : p.2.pc with _ | _
    · have := (hW.taskState p hp).1 hpc
      rw [heq, hu] at this
      cases this
    · have := (hW.taskState p hp).2 hpc
      rw [heq, hu] at this
      cases this
  refine ⟨hW.aqNodup, insertKey_nodup _ _ hW.bufNodup, ?_, ?_, ?_, ?_, ?_, ?_, ?_, ?_⟩
  · rw [hbuf]
    have : (admitOne s q).tasks.map (fun p => p.2.qid) =
        s.tasks.map (fun p => p.2.qid) ++ [q] := by
      simp [admitOne]
    rw [this]
    exact hW.perm.append_right [q]
  · intro p hp
    simp only [admitOne, List.mem_append, List.mem_singleton] at hp
    show p.1 < s.nextTid + 1
    rcases hp with hp' | hp'
    · have := hW.tidBound p hp'
      omega
    · subst hp'
      omega
  · have : (admitOne s q).tasks.map Prod.fst =
        s.tasks.map Prod.fst ++ [s.nextTid] := by
      simp [admitOne]
    rw [this]
    refine List.Nodup.append hW.tidNodup (List.nodup_singleton _) ?_
    intro a ha hb
    simp only [List.mem_singleton] at hb
    subst hb
    exact hntid ha
  · intro p hp
    simp only [admitOne, List.mem_append, List.mem_singleton] at hp
    rcases hp with hp' | hp'
    · have hts := hW.taskState p hp'
      have hne : p.2.qid ≠ q := hqidne p hp'
      constructor
      · intro hpc
        rw [stateOf_admitOne_other _ _ _ hne]
        exact hts.1 hpc
      · intro hpc
        rw [stateOf_admitOne_other _ _ _ hne]
        exact hts.2 hpc
    · subst hp'
      constructor
      · intro _
        exact stateOf_admitOne_self s q
      · intro hpc
        cases hpc
  · intro r hr
    rcases (mem_insertKey _ _ _).mp hr with hr' | rfl
    · by_cases hrq : r = q
      · subst hrq
        rw [dataOf_admitOne_self]
        simp
      · rw [dataOf_admitOne_other _ _ _ hrq]
        exact hW.dataDefined r hr'
    · rw [dataOf_admitOne_self]
      simp
  · intro r hr
    by_cases hrq : r = q
    · subst hrq
      rw [stateOf_admitOne_self]
      simp
    · rw [stateOf_admitOne_other _ _ _ hrq]
      exact hW.stateTotal r hr
  · intro r hst
    by_cases hrq : r = q
    · subst hrq
      exact (mem_insertKey _ _ _).mpr (Or.inr rfl)
    · rw [stateOf_admitOne_other _ _ _ hrq] at hst
      exact (mem_insertKey _ _ _).mpr (Or.inl (hW.stateBack r hst))
  · intro r hr
    rcases (mem_insertKey _ _ _).mp hr with hr' | rfl
    · exact hW.bufSub r hr'
    · exact hq

theorem measure_admitOne (s : Sched) (q : String) (haq : s.allQuestions.Nodup)
    (hq : q ∈ s.allQuestions) (hu : stateOf s q = some QState.unsolved) :
    sched_measure (admitOne s q) = sched_measure s := by
  unfold sched_measure
  have htasks : ((admitOne s q).tasks.map (fun p => pcWeight p.2.pc)).sum =
      (s.tasks.map (fun p => pcWeight p.2.pc)).sum + 2 := by
    simp [admitOne, pcWeight]
  have hcount : s.allQuestions.countP
        (fun r => stateOf s r = some QState.unsolved) =
      s.allQuestions.countP
        (fun r => stateOf (admitOne s q) r = some QState.unsolved) + 1 := by
    refine countP_update_of_nodup _ _ _ q haq hq ?_ ?_ ?_
    · simp [hu]
    · simp [stateOf_admitOne_self]
    · intro r _ hrq
      simp [stateOf_admitOne_other _ _ _ hrq]
  rw [show (admitOne s q).allQuestions = s.allQuestions from rfl, htasks, hcount]
  omega

theorem allQuestions_admitLoop (qs : List String) :
    ∀ (avail : Nat) (s : Sched), (admitLoop avail qs s).allQuestions = s.allQuestions := by
  induction qs with
  | nil => intro a s; rfl
  | cons q qs ih =>
    intro a s
    by_cases ha : a = 0
    · simp [admitLoop, ha]
    · by_cases hu : stateOf s q = some QState.unsolved
      · simp only [admitLoop, if_neg ha, if_pos hu]
        rw [ih, allQuestions_admitOne]
      · simp only [admitLoop, if_neg ha, if_neg hu]
        exact ih a s

theorem SchedInv_admitLoop (qs : List String) :
    ∀ (avail : Nat) (s : Sched), SchedInv s → (∀ q ∈ qs, q ∈ s.allQuestions) →
      SchedInv (admitLoop avail qs s) := by
  induction qs with
  | nil => intro a s hW _; exact hW
  | cons q qs ih =>
    intro a s hW hsub
    by_cases ha : a = 0
    · simpa [admitLoop, ha] using hW
    · by_cases hu : stateOf s q = some QState.unsolved
      · simp only [admitLoop, if_neg ha, if_pos hu]
        exact ih _ _ (SchedInv_admitOne s q hW (hsub q (by simp)) hu)
          (fun r hr => hsub r (by simp [hr]))
      · simp only [admitLoop, if_neg ha, if_neg hu]
        exact ih _ _ hW (fun r hr => hsub r (by simp [hr]))

theorem measure_admitLoop (qs : List String) :
    ∀ (avail : Nat) (s : Sched), s.allQuestions.Nodup →
      (∀ q ∈ qs, q ∈ s.allQuestions) →
      sched_measure (admitLoop avail qs s) = sched_measure s := by
  induction qs with
  | nil => intro a s _ _; rfl
  | cons q qs ih =>
    intro a s haq hsub
    by_cases ha : a = 0
    · simp [admitLoop, ha]
    · by_cases hu : stateOf s q = some QState.unsolved
      · simp only [admitLoop, if_neg ha, if_pos hu]
        rw [ih (a - 1) (admitOne s q) haq (fun r hr => hsub r (by simp [hr])),
          measure_admitOne s q haq (hsub q (by simp)) hu]
      · simp only [admitLoop, if_neg ha, if_neg hu]
        exact ih _ _ haq (fun r hr => hsub r (by simp [hr]))

theorem allQuestions_fillBuffer (s : Sched) :
    (fillBuffer s).allQuestions = s.allQuestions := by
  unfold fillBuffer
  by_cases h0 : BUFFER_SIZE - s.processingBuffer.length = 0
  · simp [h0]
  · simp only [if_neg h0]
    exact allQuestions_admitLoop _ _ _

theorem SchedInv_fillBuffer (s : Sched) (hW : SchedInv s) : SchedInv (fillBuffer s) := by
  unfold fillBuffer
  by_cases h0 : BUFFER_SIZE - s.processingBuffer.length = 0
  · simpa [h0] using hW
  · simp only [if_neg h0]
    exact SchedInv_admitLoop _ _ _ hW (fun q hq => hq)

theorem measure_fillBuffer (s : Sched) (haq : s.allQuestions.Nodup) :
    sched_measure (fillBuffer s) = sched_measure s := by
  unfold fillBuffer
  by_cases h0 : BUFFER_SIZE - s.processingBuffer.length = 0
  · simp [h0]
  · simp only [if_neg h0]
    exact measure_admitLoop _ _ _ haq (fun q hq => hq)

theorem admitLoop_exhaust (qs : List String) :
    ∀ (avail : Nat) (s : Sched), SchedInv s → (∀ q ∈ qs, q ∈ s.allQuestions) →
      (∀ q ∈ qs, stateOf (admitLoop avail qs s) q ≠ some QState.unsolved) ∨
      (admitLoop avail qs s).processingBuffer.length =
        s.processingBuffer.length + avail := by
  induction qs with
  | nil =>
    intro a s _ _
    left
    intro q hq
    cases hq
  | cons q qs ih =>
    intro a s hW hsub
    by_cases ha : a = 0
    · right
      simp [admitLoop, ha]
    · by_cases hu : stateOf s q = some QState.unsolved
      · simp only [admitLoop, if_neg ha, if_pos hu]
        have hq : q ∈ s.allQuestions := hsub q (by simp)
        have hW' := SchedInv_admitOne s q hW hq hu
        have hlen : (admitOne s q).processingBuffer.length =
            s.processingBuffer.length + 1 := by
          have hqnb : q ∉ s.processingBuffer :=
            fun h => buffered_not_unsolved s hW q h hu
          simp [admitOne, insertKey, hqnb]
        rcases ih (a - 1) (admitOne s q) hW' (fun r hr => hsub r (by simp [hr]))
          with h | h
        · left
          intro r hr
          rcases List.mem_cons.mp hr with rfl | hr'
          · rcases stateOf_admitLoop qs (a - 1) (admitOne s r) r with h2 | ⟨h2, _⟩
            · rw [h2, stateOf_admitOne_self]
              simp
            · rw [stateOf_admitOne_self] at h2
              simp at h2
          · exact h r hr'
        · right
          rw [h, hlen]
          omega
      · simp only [admitLoop, if_neg ha, if_neg hu]
        rcases ih a s hW (fun r hr => hsub r (by simp [hr])) with h | h
        · left
          intro r hr
          rcases List.mem_cons.mp hr with rfl | hr'
          · rcases stateOf_admitLoop qs a s r with h2 | ⟨h2, _⟩
            · rw [h2]
              exact hu
            · exact absurd h2 hu
          · exact h r hr'
        · right
          exact h

theorem fillBuffer_exhausted (s : Sched) (hW : SchedInv s) :
    Exhausted (fillBuffer s) := by
  unfold Exhausted fillBuffer
  by_cases h0 : BUFFER_SIZE - s.processingBuffer.length = 0
  · simp only [if_pos h0]
    intro hlen
    simp only [BUFFER_SIZE] at h0 hlen
    omega
  · simp only [if_neg h0]
    intro hlen q hq
    rw [allQuestions_admitLoop] at hq
    rcases admitLoop_exhaust s.allQuestions (BUFFER_SIZE - s.processingBuffer.length)
        s hW (fun r hr => hr) with h | h
    · exact h q hq
    · exfalso
      rw [h] at hlen
      simp only [BUFFER_SIZE] at h0 hlen
      omega

theorem findTask_head (s : Sched) (tid : Nat) (t : QTask)
    (rest : List (Nat × QTask)) (h : s.tasks = (tid, t) :: rest) :
    findTask s tid = some t := by
  simp [findTask, h, List.find?]

theorem removeTask_head (s : Sched) (tid : Nat) (t : QTask)
    (rest : List (Nat × QTask)) (h : s.tasks = (tid, t) :: rest)
    (hnd : (s.tasks.map Prod.fst).Nodup) : removeTask s tid = rest := by
  rw [removeTask, h]
  rw [h] at hnd
  simp only [List.map_cons, List.nodup_cons] at hnd
  have hrest : ∀ p ∈ rest, p.1 ≠ tid := by
    intro p hp heq
    exact hnd.1 (heq ▸ List.mem_map.mpr ⟨p, hp, rfl⟩)
  rw [List.filter_cons]
  simp only [ne_eq, decide_not, decide_eq_true_eq, not_true_eq_false,
    Bool.not_false, Bool.not_true, if_false]
  exact List.filter_eq_self.mpr (fun p hp => by simpa using hrest p hp)

theorem replaceTask_head (s : Sched) (tid : Nat) (t new : QTask)
    (rest : List (Nat × QTask)) (h : s.tasks = (tid, t) :: rest)
    (hnd : (s.tasks.map Prod.fst).Nodup) :
    s.tasks.map (fun p => if p.1 = tid then (p.1, new) else p) =
      (tid, new) :: rest := by
  rw [h]
  rw [h] at hnd
  simp only [List.map_cons, List.nodup_cons] at hnd
  have hrest : ∀ p ∈ rest, p.1 ≠ tid := by
    intro p hp heq
    exact hnd.1 (heq ▸ List.mem_map.mpr ⟨p, hp, rfl⟩)
  simp only [List.map_cons, if_pos rfl]
  congr 1
  have : ∀ p ∈ rest, (if p.1 = tid then (p.1, new) else p) = p := by
    intro p hp
    rw [if_neg (hrest p hp)]
  calc rest.map (fun p => if p.1 = tid then (p.1, new) else p)
      = rest.map id := List.map_congr_left this
    _ = rest := List.map_id rest

theorem head_qid_mem_buffer (s : Sched) (tid : Nat) (t : QTask)
    (rest : List (Nat × QTask)) (h : s.tasks = (tid, t) :: rest)
    (hW : SchedInv s) : t.qid ∈ s.processingBuffer := by
  refine hW.perm.mem_iff.mp ?_
  rw [h]
  simp

theorem runRound_extract_eq (s : Sched) (tid : Nat) (q : String)
    (rest : List (Nat × QTask))
    (hts : s.tasks = (tid, ⟨q, PC.awaitingExtract⟩) :: rest) (hW : SchedInv s) :
    ∃ d, dataOf s q = some d ∧
      runRound s = { s with
        questionData := aset s.questionData q
          { d with extractedText := some "extracted text" },
        questionStates := aset s.questionStates q QState.solving,
        tasks := (tid, ⟨q, PC.awaitingSolve⟩) :: rest } := by
  have hmem : q ∈ s.processingBuffer := head_qid_mem_buffer s tid _ rest hts hW
  rcases hd : dataOf s q with _ | d
  · exact absurd hd (hW.dataDefined q hmem)
  · refine ⟨d, rfl, ?_⟩
    have hfind : findTask s tid = some ⟨q, PC.awaitingExtract⟩ :=
      findTask_head s tid _ rest hts
    simp only [runRound, hts]
    simp only [step, hfind, hd, if_pos hmem]
    rw [replaceTask_head s tid _ _ rest hts hW.tidNodup]

theorem runRound_solve_eq (s : Sched) (tid : Nat) (q : String)
    (rest : List (Nat × QTask))
    (hts : s.tasks = (tid, ⟨q, PC.awaitingSolve⟩) :: rest) (hW : SchedInv s) :
    ∃ d, dataOf s q = some d ∧
      runRound s = fillBuffer { s with
        questionData := aset s.questionData q
          { d with solvedText := some "solution text" },
        questionStates := aset s.questionStates q QState.solved,
        processingBuffer := s.processingBuffer.erase q,
        tasks := rest } := by
  have hmem : q ∈ s.processingBuffer := head_qid_mem_buffer s tid _ rest hts hW
  rcases hd : dataOf s q with _ | d
  · exact absurd hd (hW.dataDefined q hmem)
  · refine ⟨d, rfl, ?_⟩
    have hfind : findTask s tid = some ⟨q, PC.awaitingSolve⟩ :=
      findTask_head s tid _ rest hts
    simp only [runRound, hts]
    simp only [step, hfind, hd, if_pos hmem]
    rw [removeTask_head s tid _ rest hts hW.tidNodup]

theorem qids_nodup (s : Sched) (hW : SchedInv s) :
    (s.tasks.map (fun p => p.2.qid)).Nodup :=
  hW.perm.nodup_iff.mpr hW.bufNodup

theorem SchedInv_resumeExtract (s : Sched) (tid : Nat) (q : String)
    (rest : List (Nat × QTask)) (d : QData) (text : String)
    (hts : s.tasks = (tid, ⟨q, PC.awaitingExtract⟩) :: rest) (hW : SchedInv s) :
    SchedInv { s with
      questionData := aset s.questionData q { d with extractedText := some text },
      questionStates := aset s.questionStates q QState.solving,
      tasks := (tid, ⟨q, PC.awaitingSolve⟩) :: rest } := by
  have hmem : q ∈ s.processingBuffer := head_qid_mem_buffer s tid _ rest hts hW
  have hqids := qids_nodup s hW
  rw [hts] at hqids
  simp only [List.map_cons, List.nodup_cons] at hqids
  have hqne : ∀ p ∈ rest, p.2.qid ≠ q := by
    intro p hp heq'
    exact hqids.1 (heq' ▸ List.mem_map.mpr ⟨p, hp, rfl⟩)
  refine ⟨hW.aqNodup, hW.bufNodup, ?_, ?_, ?_, ?_, ?_, ?_, ?_, ?_⟩
  · have hmap : ((tid, (⟨q, PC.awaitingSolve⟩ : QTask)) :: rest).map
        (fun p => p.2.qid) = s.tasks.map (fun p => p.2.qid) := by
      rw [hts]
      simp
    exact hmap ▸ hW.perm
  · intro p hp
    rcases List.mem_cons.mp hp with rfl | hp'
    · exact hW.tidBound (tid, ⟨q, PC.awaitingExtract⟩)
        (hts ▸ List.mem_cons_self _ _)
    · exact hW.tidBound p (hts ▸ List.mem_cons_of_mem _ hp')
  · have hmap : ((tid, (⟨q, PC.awaitingSolve⟩ : QTask)) :: rest).map Prod.fst =
        s.tasks.map Prod.fst := by
      rw [hts]
      simp
    exact hmap ▸ hW.tidNodup
  · intro p hp
    rcases List.mem_cons.mp hp with rfl | hp'
    · constructor
      · intro hpc'
        cases hpc'
      · intro _
        simp only [stateOf]
        rw [alookup_aset_self]
    · have hts' := hW.taskState p (hts ▸ List.mem_cons_of_mem _ hp')
      constructor
      · intro hpc'
        simp only [stateOf]
        rw [alookup_aset_other _ _ _ _ (hqne p hp')]
        exact hts'.1 hpc'
      · intro hpc'
        simp only [stateOf]
        rw [alookup_aset_other _ _ _ _ (hqne p hp')]
        exact hts'.2 hpc'
  · intro r hr
    by_cases hrq : r = q
    · subst hrq
      simp only [dataOf]
      rw [alookup_aset_self]
      simp
    · simp only [dataOf]
      rw [alookup_aset_other _ _ _ _ hrq]
      exact hW.dataDefined r hr
  · intro r hr
    by_cases hrq : r = q
    · subst hrq
      simp only [stateOf]
      rw [alookup_aset_self]
      simp
    · simp only [stateOf]
      rw [alookup_aset_other _ _ _ _ hrq]
      exact hW.stateTotal r hr
  · intro r hst
    by_cases hrq : r = q
    · subst hrq
      exact hmem
    · simp only [stateOf] at hst
      rw [alookup_aset_other _ _ _ _ hrq] at hst
      exact hW.stateBack r hst
  · intro r hr
    exact hW.bufSub r hr

theorem SchedInv_resumeSolve (s : Sched) (tid : Nat) (q : String)
    (rest : List (Nat × QTask)) (d : QData) (text : String)
    (hts : s.tasks = (tid, ⟨q, PC.awaitingSolve⟩) :: rest) (hW : SchedInv s) :
    SchedInv { s with
      questionData := aset s.questionData q { d with solvedText := some text },
      questionStates := aset s.questionStates q QState.solved,
      processingBuffer := s.processingBuffer.erase q,
      tasks := rest } := by
  have hmem : q ∈ s.processingBuffer := head_qid_mem_buffer s tid _ rest hts hW
  have hqids := qids_nodup s hW
  rw [hts] at hqids
  simp only [List.map_cons, List.nodup_cons] at hqids
  have hqne : ∀ p ∈ rest, p.2.qid ≠ q := by
    intro p hp heq'
    exact hqids.1 (heq' ▸ List.mem_map.mpr ⟨p, hp, rfl⟩)
  refine ⟨hW.aqNodup, hW.bufNodup.erase q, ?_, ?_, ?_, ?_, ?_, ?_, ?_, ?_⟩
  · have hperm := hW.perm
    rw [hts] at hperm
    simp only [List.map_cons] at hperm
    have := hperm.erase q
    rw [List.erase_cons_head] at this
    exact this
  · intro p hp
    exact hW.tidBound p (hts ▸ List.mem_cons_of_mem _ hp)
  · have := hW.tidNodup
    rw [hts] at this
    simp only [List.map_cons, List.nodup_cons] at this
    exact this.2
  · intro p hp
    have hts' := hW.taskState p (hts ▸ List.mem_cons_of_mem _ hp)
    constructor
    · intro hpc'
      simp only [stateOf]
      rw [alookup_aset_other _ _ _ _ (hqne p hp)]
      exact hts'.1 hpc'
    · intro hpc'
      simp only [stateOf]
      rw [alookup_aset_other _ _ _ _ (hqne p hp)]
      exact hts'.2 hpc'
  · intro r hr
    have hrq : r ≠ q ∧ r ∈ s.processingBuffer :=
      (List.Nodup.mem_erase_iff hW.bufNodup).mp hr
    simp only [dataOf]
    rw [alookup_aset_other _ _ _ _ hrq.1]
    exact hW.dataDefined r hrq.2
  · intro r hr
    by_cases hrq : r = q
    · subst hrq
      simp only [stateOf]
      rw [alookup_aset_self]
      simp
    · simp only [stateOf]
      rw [alookup_aset_other _ _ _ _ hrq]
      exact hW.stateTotal r hr
  · intro r hst
    by_cases hrq : r = q
    · subst hrq
      simp only [stateOf] at hst
      rw [alookup_aset_self] at hst
      rcases hst with h | h <;> simp at h
    · simp only [stateOf] at hst
      rw [alookup_aset_other _ _ _ _ hrq] at hst
      exact (List.Nodup.mem_erase_iff hW.bufNodup).mpr ⟨hrq, hW.stateBack r hst⟩
  · intro r hr
    exact hW.bufSub r (List.mem_of_mem_erase hr)

theorem runRound_measure (s : Sched) (hW : SchedInv s) (hne : s.tasks ≠ []) :
    sched_measure (runRound s) + 1 = sched_measure s := by
  cases hts : s.tasks with
  | nil => exact absurd hts hne
  | cons p rest =>
    obtain ⟨tid, t⟩ := p
    obtain ⟨q, pc⟩ := t
    cases pc with
    | awaitingExtract =>
      obtain ⟨d, hd, heq⟩ := runRound_extract_eq s tid q rest hts hW
      rw [heq]
      have hqstate0 : stateOf s q = some QState.extracted :=
        (hW.taskState (tid, ⟨q, PC.awaitingExtract⟩)
          (hts ▸ List.mem_cons_self _ _)).1 rfl
      have hqstate : alookup s.questionStates q = some QState.extracted := hqstate0
      unfold sched_measure
      simp only [stateOf]
      have hcount : s.allQuestions.countP
          (fun r => alookup (aset s.questionStates q QState.solving) r =
            some QState.unsolved) =
          s.allQuestions.countP
          (fun r => alookup s.questionStates r = some QState.unsolved) := by
        refine List.countP_congr ?_
        intro r _
        by_cases hrq : r = q
        · subst hrq
          rw [alookup_aset_self, hqstate]
          simp
        · rw [alookup_aset_other _ _ _ _ hrq]
      rw [hcount, hts]
      simp only [List.map_cons, List.sum_cons, pcWeight]
      omega
    | awaitingSolve =>
      obtain ⟨d, hd, heq⟩ := runRound_solve_eq s tid q rest hts hW
      rw [heq]
      have hqstate0 : stateOf s q = some QState.solving :=
        (hW.taskState (tid, ⟨q, PC.awaitingSolve⟩)
          (hts ▸ List.mem_cons_self _ _)).2 rfl
      have hqstate : alookup s.questionStates q = some QState.solving := hqstate0
      have hmf := measure_fillBuffer { s with
          questionData := aset s.questionData q { d with solvedText := some "solution text" },
          questionStates := aset s.questionStates q QState.solved,
          processingBuffer := s.processingBuffer.erase q,
          tasks := rest } hW.aqNodup
      rw [hmf]
      unfold sched_measure
      simp only [stateOf]
      have hcount : s.allQuestions.countP
          (fun r => alookup (aset s.questionStates q QState.solved) r =
            some QState.unsolved) =
          s.allQuestions.countP
          (fun r => alookup s.questionStates r = some QState.unsolved) := by
        refine List.countP_congr ?_
        intro r _
        by_cases hrq : r = q
        · subst hrq
          rw [alookup_aset_self, hqstate]
          simp
        · rw [alookup_aset_other _ _ _ _ hrq]
      rw [hcount, hts]
      simp only [List.map_cons, List.sum_cons, pcWeight]
      omega

theorem runRound_inv (s : Sched) (hW : SchedInv s) : SchedInv (runRound s) := by
  cases hts : s.tasks with
  | nil =>
    have : runRound s = s := by
      simp [runRound, hts]
    rw [this]
    exact hW
  | cons p rest =>
    obtain ⟨tid, t⟩ := p
    obtain ⟨q, pc⟩ := t
    cases pc with
    | awaitingExtract =>
      obtain ⟨d, hd, heq⟩ := runRound_extract_eq s tid q rest hts hW
      rw [heq]
      exact SchedInv_resumeExtract s tid q rest d _ hts hW
    | awaitingSolve =>
      obtain ⟨d, hd, heq⟩ := runRound_solve_eq s tid q rest hts hW
      rw [heq]
      exact SchedInv_fillBuffer _ (SchedInv_resumeSolve s tid q rest d _ hts hW)

theorem runRound_exhausted (s : Sched) (hW : SchedInv s) (hE : Exhausted s) :
    Exhausted (runRound s) := by
  cases hts : s.tasks with
  | nil =>
    have : runRound s = s := by
      simp [runRound, hts]
    rw [this]
    exact hE
  | cons p rest =>
    obtain ⟨tid, t⟩ := p
    obtain ⟨q, pc⟩ := t
    cases pc with
    | awaitingExtract =>
      obtain ⟨d, hd, heq⟩ := runRound_extract_eq s tid q rest hts hW
      rw [heq]
      intro hlen r hr
      simp only [stateOf]
      by_cases hrq : r = q
      · subst hrq
        rw [alookup_aset_self]
        simp
      · rw [alookup_aset_other _ _ _ _ hrq]
        exact hE hlen r hr
    | awaitingSolve =>
      obtain ⟨d, hd, heq⟩ := runRound_solve_eq s tid q rest hts hW
      rw [heq]
      exact fillBuffer_exhausted _ (SchedInv_resumeSolve s tid q rest d _ hts hW)

theorem allQuestions_catchHandler (s : Sched) (tid : Nat) (q : String) :
    (catchHandler s tid q).allQuestions = s.allQuestions := by
  unfold catchHandler
  rw [allQuestions_fillBuffer]

theorem allQuestions_step (s : Sched) (e : Ev) (hne : e ≠ Ev.reset) :
    (step s e).allQuestions = s.allQuestions := by
  cases e with
  | reset => exact absurd rfl hne
  | resumeExtract tid text =>
    rcases hft : findTask s tid with _ | ⟨q, pc⟩
    · simp [step, hft]
    · cases pc with
      | awaitingSolve => simp [step, hft]
      | awaitingExtract =>
        rcases hd : dataOf s q with _ | d
        · simp only [step, hft, hd]
          exact allQuestions_catchHandler s tid q
        · by_cases hmem : q ∈ s.processingBuffer
          · simp [step, hft, hd, hmem]
          · simp [step, hft, hd, hmem]
  | resumeSolve tid text =>
    rcases hft : findTask s tid with _ | ⟨q, pc⟩
    · simp [step, hft]
    · cases pc with
      | awaitingExtract => simp [step, hft]
      | awaitingSolve =>
        rcases hd : dataOf s q with _ | d
        · simp only [step, hft, hd]
          exact allQuestions_catchHandler s tid q
        · by_cases hmem : q ∈ s.processingBuffer
          · simp only [step, hft, hd, if_pos hmem]
            rw [allQuestions_fillBuffer]
          · simp [step, hft, hd, hmem]
  | fault tid =>
    rcases hft : findTask s tid with _ | ⟨q, pc⟩
    · simp [step, hft]
    · simp only [step, hft]
      exact allQuestions_catchHandler s tid q

theorem allQuestions_runRound (s : Sched) :
    (runRound s).allQuestions = s.allQuestions := by
  cases hts : s.tasks with
  | nil => simp [runRound, hts]
  | cons p rest =>
    obtain ⟨tid, t⟩ := p
    cases hpc : t.pc with
    | awaitingExtract =>
      simp only [runRound, hts, hpc]
      exact allQuestions_step s _ (by simp)
    | awaitingSolve =>
      simp only [runRound, hts, hpc]
      exact allQuestions_step s _ (by simp)

theorem allQuestions_run (n : Nat) :
    ∀ s : Sched, (run n s).allQuestions = s.allQuestions := by
  induction n with
  | zero => intro s; rfl
  | succ n ih =>
    intro s
    rw [run, ih, allQuestions_runRound]

theorem terminal_state (s : Sched) (hW : SchedInv s) (hE : Exhausted s)
    (ht : s.tasks = []) :
    s.processingBuffer = [] ∧
      ∀ q ∈ s.allQuestions, stateOf s q = some QState.solved := by
  have hbuf : s.processingBuffer = [] := by
    have hp := hW.perm
    rw [ht] at hp
    simp only [List.map_nil] at hp
    exact hp.symm.eq_nil
  refine ⟨hbuf, ?_⟩
  intro q hq
  have hsome := hW.stateTotal q hq
  have hnu : stateOf s q ≠ some QState.unsolved := by
    refine hE ?_ q hq
    rw [hbuf]
    simp [BUFFER_SIZE]
  rcases hst : stateOf s q with _ | st
  · exact absurd hst hsome
  · cases st with
    | unsolved => exact absurd hst hnu
    | extracted =>
      have := hW.stateBack q (Or.inl hst)
      rw [hbuf] at this
      cases this
    | solving =>
      have := hW.stateBack q (Or.inr hst)
      rw [hbuf] at this
      cases this
    | solved => rfl

theorem run_terminal (n : Nat) :
    ∀ s : Sched, SchedInv s → Exhausted s → sched_measure s ≤ n →
      (run n s).tasks = [] ∧ SchedInv (run n s) ∧ Exhausted (run n s) := by
  induction n with
  | zero =>
    intro s hW hE hμ
    simp only [run]
    refine ⟨?_, hW, hE⟩
    have hμ0 : sched_measure s = 0 := Nat.le_zero.mp hμ
    unfold sched_measure at hμ0
    have hsum : (s.tasks.map (fun p => pcWeight p.2.pc)).sum = 0 := by omega
    cases hts : s.tasks with
    | nil => rfl
    | cons p rest =>
      rw [hts] at hsum
      simp only [List.map_cons, List.sum_cons] at hsum
      cases hpc : p.2.pc <;> rw [hpc] at hsum <;> simp [pcWeight] at hsum
  | succ n ih =>
    intro s hW hE hμ
    by_cases hne : s.tasks = []
    · have hrr : runRound s = s := by
        simp [runRound, hne]
      have hbuf : s.processingBuffer = [] := by
        have hp := hW.perm
        rw [hne] at hp
        simp only [List.map_nil] at hp
        exact hp.symm.eq_nil
      have hcnt : s.allQuestions.countP
          (fun q => stateOf s q = some QState.unsolved) = 0 := by
        refine List.countP_eq_zero.mpr ?_
        intro q hq
        have : stateOf s q ≠ some QState.unsolved := by
          refine hE ?_ q hq
          rw [hbuf]
          simp [BUFFER_SIZE]
        simpa using this
      have hμ' : sched_measure s ≤ n := by
        unfold sched_measure
        rw [hne, hcnt]
        simp
      rw [run, hrr]
      exact ih s hW hE hμ'
    · have hdec := runRound_measure s hW hne
      rw [run]
      exact ih _ (runRound_inv s hW) (runRound_exhausted s hW hE) (by omega)

theorem alookup_const_map (qs : List String) (st : QState) (q : String) :
    alookup (qs.map (fun r => (r, st))) q = if q ∈ qs then some st else none := by
  induction qs with
  | nil => simp [alookup]
  | cons a l ih =>
    by_cases haq : a = q
    · subst haq
      simp [alookup]
    · have hqa : ¬(q = a) := fun h => haq h.symm
      simp [alookup, haq, ih, hqa]

/-- The scheduler state the moment `initializeProcessing` has reset every
question to `'unsolved'` and cleared the buffer, just before its
`fillBuffer` call. -/
def init0 (qs : List String) : Sched :=
  ⟨qs, qs.map (fun q => (q, QState.unsolved)), [], [], [], 0⟩

theorem initState_eq (qs : List String) : initState qs = fillBuffer (init0 qs) := rfl

theorem SchedInv_init0 (qs : List String) (hqs : qs.Nodup) : SchedInv (init0 qs) := by
  refine ⟨hqs, List.nodup_nil, ?_, ?_, ?_, ?_, ?_, ?_, ?_, ?_⟩
  · exact List.Perm.refl _
  · intro p hp
    cases hp
  · simp [init0]
  · intro p hp
    cases hp
  · intro q hq
    cases hq
  · intro q hq
    have hq' : q ∈ qs := hq
    simp [init0, stateOf, alookup_const_map, hq']
  · intro q hst
    exfalso
    by_cases hq : q ∈ qs
    · rcases hst with h | h <;> simp [init0, stateOf, alookup_const_map, hq] at h
    · rcases hst with h | h <;> simp [init0, stateOf, alookup_const_map, hq] at h
  · intro q hq
    cases hq

theorem measure_init0 (qs : List String) :
    sched_measure (init0 qs) = 2 * qs.length := by
  unfold sched_measure
  have hcnt : qs.countP
      (fun q => stateOf (init0 qs) q = some QState.unsolved) = qs.length := by
    refine List.countP_eq_length.mpr ?_
    intro q hq
    simp [init0, stateOf, alookup_const_map, hq]
  show (([] : List (Nat × QTask)).map (fun p => pcWeight p.2.pc)).sum +
      2 * qs.countP (fun q => stateOf (init0 qs) q = some QState.unsolved) =
      2 * qs.length
  rw [hcnt]
  simp

theorem allQuestions_initState (qs : List String) :
    (initState qs).allQuestions = qs := by
  rw [initState_eq, allQuestions_fillBuffer]
  rfl

/-- **C7.** Refill completeness.  First conjunct: for any duplicate-free list
of `K` questions, with no evictions (no resets or faults) and every
extract/solve call resolving with text, `2 * K` task resumptions in
admission order (`runRound`) drive the scheduler to quiescence: the buffer
ends empty and every question ends in state `'solved'` — repeated slot
releases and refills eventually admit and complete every question, with the
code's capacity `BUFFER_SIZE = 3`.  Remaining conjuncts: the concrete run
with questions `["1","2","3","4"]` — the buffer is `{"1","2","3"}` after
initialization, `{"2","3","4"}` once `"1"` reaches `'solved'` (the
interleaving follows the FIFO order of the gate: the three extraction calls
finish, then `"1"`'s solve call), and all four questions end `'solved'`
with the buffer empty. -/
theorem C7_refill_completeness :
    (∀ qs : List String, qs.Nodup →
      (run (2 * qs.length) (initState qs)).processingBuffer = [] ∧
      ∀ q ∈ qs, stateOf (run (2 * qs.length) (initState qs)) q =
        some QState.solved) ∧
    (initState ["1", "2", "3", "4"]).processingBuffer = ["1", "2", "3"] ∧
    (exec (initState ["1", "2", "3", "4"])
        [Ev.resumeExtract 0 "e1", Ev.resumeExtract 1 "e2", Ev.resumeExtract 2 "e3",
         Ev.resumeSolve 0 "s1"]).processingBuffer = ["2", "3", "4"] ∧
    stateOf (exec (initState ["1", "2", "3", "4"])
        [Ev.resumeExtract 0 "e1", Ev.resumeExtract 1 "e2", Ev.resumeExtract 2 "e3",
         Ev.resumeSolve 0 "s1"]) "1" = some QState.solved ∧
    (exec (initState ["1", "2", "3", "4"])
        [Ev.resumeExtract 0 "e1", Ev.resumeExtract 1 "e2", Ev.resumeExtract 2 "e3",
         Ev.resumeSolve 0 "s1", Ev.resumeExtract 3 "e4", Ev.resumeSolve 1 "s2",
         Ev.resumeSolve 2 "s3", Ev.resumeSolve 3 "s4"]).processingBuffer = [] ∧
    ∀ q ∈ ["1", "2", "3", "4"],
      stateOf (exec (initState ["1", "2", "3", "4"])
        [Ev.resumeExtract 0 "e1", Ev.resumeExtract 1 "e2", Ev.resumeExtract 2 "e3",
         Ev.resumeSolve 0 "s1", Ev.resumeExtract 3 "e4", Ev.resumeSolve 1 "s2",
         Ev.resumeSolve 2 "s3", Ev.resumeSolve 3 "s4"]) q = some QState.solved := by
  refine ⟨?_, by decide, by decide, by decide, by decide, by decide⟩
  intro qs hqs
  have hinv0 : SchedInv (init0 qs) := SchedInv_init0 qs hqs
  have hinv : SchedInv (initState qs) := by
    rw [initState_eq]
    exact SchedInv_fillBuffer _ hinv0
  have hexh : Exhausted (initState qs) := by
    rw [initState_eq]
    exact fillBuffer_exhausted _ hinv0
  have hmeas : sched_measure (initState qs) ≤ 2 * qs.length := by
    rw [initState_eq, measure_fillBuffer (init0 qs) hqs, measure_init0]
  obtain ⟨ht, hW', hE'⟩ := run_terminal (2 * qs.length) (initState qs) hinv hexh hmeas
  obtain ⟨hbuf, hsolved⟩ := terminal_state _ hW' hE' ht
  refine ⟨hbuf, ?_⟩
  intro q hq
  refine hsolved q ?_
  rw [allQuestions_run, allQuestions_initState]
  exact hq

/-- Concrete instance of `C7_refill_completeness`'s general conjunct: four
questions complete in eight rounds. -/
theorem C7_refill_completeness_witness :
    (run 8 (initState ["a", "b", "c", "d"])).processingBuffer = [] :=
  (C7_refill_completeness.1 ["a", "b", "c", "d"] (by decide)).1

/-! ### The API gate with time (`processAPIQueue`, src/images.js:337-370)

The timed machine refines the untimed gate: `now` is the current instant
(JS epoch milliseconds, so it starts large), `lastAPICallTime` the shared
completion marker (initially 0, src/images.js:215).  A live drain-loop
instance is suspended either in the rate-limit sleep
(`await new Promise(resolve => setTimeout(resolve, waitTime))`,
src/images.js:352 — state `waiting resumeAt`) or awaiting its current
call's promise (`await apiCallFunction()`, src/images.js:360 — state
`inCall callId`).  One iteration of the `while` loop: if the queue is
empty the loop exits clearing the flag; otherwise it computes
`timeSinceLastCall = now - lastAPICallTime` (truncated subtraction matches
JS, since timestamps only grow and `lastAPICallTime ≤ now` except right
after a reset zeroes it), sleeps the shortfall when under the floor, then
shifts the queue head and starts that call.  On settlement
`lastAPICallTime := Date.now()` and the loop re-examines the queue at that
same instant.  Dispatches and completions are logged newest-first in
`history`. -/

inductive TLoopState
  | waiting (resumeAt : Nat)
  | inCall (callId : Nat)
deriving DecidableEq

def TLoopState.isInCall : TLoopState → Bool
  | .waiting _ => false
  | .inCall _ => true

def TLoopState.isWaiting : TLoopState → Bool
  | .waiting _ => true
  | .inCall _ => false

/-- One observable action of the gate, newest first in the log. -/
inductive TRec
  | dispatch (loopId callId start : Nat)
  | completion (loopId callId time : Nat)
deriving DecidableEq

structure TGateState where
  now : Nat
  lastAPICallTime : Nat
  apiCallQueue : List Nat
  isProcessingQueue : Bool
  loops : List (Nat × TLoopState)
  nextLoopId : Nat
  nextCallId : Nat
  history : List TRec
deriving DecidableEq

/-- `apiCallQueue.shift()` followed by `await apiCallFunction()`
(src/images.js:356-360): dispatch the queue head at instant `s.now`.  A
shift on an empty queue (reachable only when a reset cleared the queue
while the loop slept) throws on the destructuring and kills the loop. -/
def tdispatch (s : TGateState) (loopId : Nat) : TGateState :=
  match s.apiCallQueue with
  | [] => s
  | c :: rest =>
    { s with apiCallQueue := rest,
             loops := s.loops ++ [(loopId, TLoopState.inCall c)],
             history := TRec.dispatch loopId c s.now :: s.history }

/-- The head of one `while` iteration (src/images.js:344-353): exit clearing
the flag when the queue is empty, sleep the shortfall when the floor is not
yet met, else dispatch at once. -/
def titerate (s : TGateState) (loopId : Nat) : TGateState :=
  match s.apiCallQueue with
  | [] => { s with isProcessingQueue := false }
  | _ :: _ =>
    if s.now - s.lastAPICallTime < RATE_LIMIT_DELAY then
      { s with loops := s.loops ++ [(loopId, TLoopState.waiting
          (s.now + (RATE_LIMIT_DELAY - (s.now - s.lastAPICallTime))))] }
    else tdispatch s loopId

def removeLoop (s : TGateState) (loopId : Nat) : TGateState :=
  { s with loops := s.loops.filter (fun p => p.1 ≠ loopId) }

def findWaiting (s : TGateState) (loopId : Nat) : Option Nat :=
  (s.loops.find? (fun p => p.1 = loopId && p.2.isWaiting)).bind
    (fun p => match p.2 with
      | TLoopState.waiting r => some r
      | TLoopState.inCall _ => none)

def findInCall (s : TGateState) (loopId : Nat) : Option Nat :=
  (s.loops.find? (fun p => p.1 = loopId && p.2.isInCall)).bind
    (fun p => match p.2 with
      | TLoopState.waiting _ => none
      | TLoopState.inCall c => some c)

/-- Timed gate events: a submission after `dt` more milliseconds, the
rate-limit timer of a sleeping loop firing at its scheduled instant, a
dispatched call settling after running for `dt`, and the reset performed by
`initializeProcessing` (src/images.js:652-654: clear the queue, clear the
flag, zero `lastAPICallTime`) after `dt`. -/
inductive TEv
  | submit (dt : Nat)
  | timer (loopId : Nat)
  | complete (loopId : Nat) (dt : Nat)
  | reset (dt : Nat)
deriving DecidableEq

def TEv.isReset : TEv → Bool
  | .reset _ => true
  | _ => false

def tstep (s : TGateState) : TEv → TGateState
  | .submit dt =>
    if s.isProcessingQueue then
      { s with now := s.now + dt,
               apiCallQueue := s.apiCallQueue ++ [s.nextCallId],
               nextCallId := s.nextCallId + 1 }
    else
      titerate
        { s with now := s.now + dt,
                 apiCallQueue := s.apiCallQueue ++ [s.nextCallId],
                 nextCallId := s.nextCallId + 1,
                 isProcessingQueue := true,
                 nextLoopId := s.nextLoopId + 1 } s.nextLoopId
  | .timer loopId =>
    match findWaiting s loopId with
    | none => s
    | some r =>
      if s.now ≤ r then tdispatch { (removeLoop s loopId) with now := r } loopId
      else s
  | .complete loopId dt =>
    match findInCall s loopId with
    | none => s
    | some c =>
      titerate { (removeLoop s loopId) with
        now := s.now + dt,
        lastAPICallTime := s.now + dt,
        history := TRec.completion loopId c (s.now + dt) :: s.history } loopId
  | .reset dt =>
    { s with now := s.now + dt, apiCallQueue := [], isProcessingQueue := false,
             lastAPICallTime := 0 }

def tgateExec (s : TGateState) : List TEv → TGateState
  | [] => s
  | e :: es => tgateExec (tstep s e) es

/-- The gate at page load, `t0` milliseconds into the epoch:
`lastAPICallTime = 0` (src/images.js:215), nothing queued, no loop. -/
def tgateInit (t0 : Nat) : TGateState :=
  { now := t0, lastAPICallTime := 0, apiCallQueue := [], isProcessingQueue := false,
    loops := [], nextLoopId := 0, nextCallId := 0, history := [] }

/-- The instant of the most recent completion in a newest-first log. -/
def latestCompletion : List TRec → Option Nat
  | [] => none
  | TRec.completion _ _ t :: _ => some t
  | TRec.dispatch _ _ _ :: rest => latestCompletion rest

/-- Every dispatch in the newest-first log starts at least
`RATE_LIMIT_DELAY` after the most recent completion observed before it. -/
def dispatchesRespectFloor : List TRec → Prop
  | [] => True
  | TRec.dispatch _ _ t :: rest =>
    (∀ ct, latestCompletion rest = some ct → ct + RATE_LIMIT_DELAY ≤ t) ∧
      dispatchesRespectFloor rest
  | TRec.completion _ _ _ :: rest => dispatchesRespectFloor rest

/-! ### Theorems: rate floor (claim C3) -/

/-- **C3** fails as stated: the completion-to-start floor and the
one-call-in-flight bound do not survive an `initializeProcessing` reset.
From page load at epoch instant 10000: submit a call — it is dispatched at
10000 and its drain loop suspends awaiting it; reset (the queue and the
`isProcessingQueue` flag are cleared and `lastAPICallTime` zeroed while
that call is still in flight); submit again — a second drain loop starts
and, seeing `now - lastAPICallTime = 10000 ≥ 2000`, dispatches immediately
at 10000.  Two outbound calls are now in flight at once, and when the first
call settles at 10100 the log shows the second dispatched call started at
10000 — before the first call's completion, let alone 2000 ms after it. -/
theorem C3_counterexample :
    (((tgateExec (tgateInit 10000)
        [TEv.submit 0, TEv.reset 0, TEv.submit 0]).loops.countP
      (fun p => p.2.isInCall)) = 2) ∧
    (tgateExec (tgateInit 10000)
        [TEv.submit 0, TEv.reset 0, TEv.submit 0, TEv.complete 0 100]).history =
      [TRec.completion 0 0 10100, TRec.dispatch 1 1 10000,
       TRec.dispatch 0 0 10000] ∧
    ¬(10100 + RATE_LIMIT_DELAY ≤ 10000) := by
  refine ⟨by decide, by decide, by decide⟩

/-- The invariant of reset-free timed-gate executions. -/
structure TInv (s : TGateState) : Prop where
  flagOne : s.isProcessingQueue = true → s.loops.length = 1
  flagNone : s.isProcessingQueue = false → s.loops = []
  lastNow : s.lastAPICallTime ≤ s.now
  waitQueue : ∀ p ∈ s.loops, p.2.isWaiting = true → s.apiCallQueue ≠ []
  waitExact : ∀ p ∈ s.loops, ∀ r, p.2 = TLoopState.waiting r →
      r = s.lastAPICallTime + RATE_LIMIT_DELAY
  lastHist : s.lastAPICallTime = (latestCompletion s.history).getD 0
  floor : dispatchesRespectFloor s.history

theorem mem_length_one {α : Type} (l : List α) (p : α) (hlen : l.length = 1)
    (hp : p ∈ l) : l = [p] := by
  cases l with
  | nil => cases hp
  | cons a t =>
    simp only [List.length_cons] at hlen
    have ht : t = [] := List.length_eq_zero.mp (by omega)
    subst ht
    simp only [List.mem_singleton] at hp
    rw [hp]

theorem findWaiting_mem (s : TGateState) (loopId r : Nat)
    (h : findWaiting s loopId = some r) :
    (loopId, TLoopState.waiting r) ∈ s.loops := by
  unfold findWaiting at h
  cases hf : s.loops.find? (fun p => p.1 = loopId && p.2.isWaiting) with
  | none => rw [hf] at h; cases h
  | some p =>
    rw [hf] at h
    simp only [Option.some_bind] at h
    have hmem := List.mem_of_find?_eq_some hf
    have hpred := List.find?_some hf
    simp only [Bool.and_eq_true, decide_eq_true_eq] at hpred
    cases hp2 : p.2 with
    | inCall c => rw [hp2] at h; cases h
    | waiting r' =>
      rw [hp2] at h
      simp only [Option.some.injEq] at h
      have hpeq : p = (loopId, TLoopState.waiting r) := by
        have h1 := hpred.1
        rw [← h1, ← h, ← hp2]
      rw [← hpeq]
      exact hmem

theorem findInCall_mem (s : TGateState) (loopId c : Nat)
    (h : findInCall s loopId = some c) :
    (loopId, TLoopState.inCall c) ∈ s.loops := by
  unfold findInCall at h
  cases hf : s.loops.find? (fun p => p.1 = loopId && p.2.isInCall) with
  | none => rw [hf] at h; cases h
  | some p =>
    rw [hf] at h
    simp only [Option.some_bind] at h
    have hmem := List.mem_of_find?_eq_some hf
    have hpred := List.find?_some hf
    simp only [Bool.and_eq_true, decide_eq_true_eq] at hpred
    cases hp2 : p.2 with
    | waiting r => rw [hp2] at h; cases h
    | inCall c' =>
      rw [hp2] at h
      simp only [Option.some.injEq] at h
      have hpeq : p = (loopId, TLoopState.inCall c) := by
        have h1 := hpred.1
        rw [← h1, ← h, ← hp2]
      rw [← hpeq]
      exact hmem

theorem TInv_tdispatch_of_floor (s : TGateState) (loopId : Nat)
    (hloops : s.loops = [])
    (hflag : s.isProcessingQueue = true)
    (hfloorNow : s.lastAPICallTime + RATE_LIMIT_DELAY ≤ s.now)
    (hlastHist : s.lastAPICallTime = (latestCompletion s.history).getD 0)
    (hfloor : dispatchesRespectFloor s.history)
    (hq : s.apiCallQueue ≠ []) :
    TInv (tdispatch s loopId) := by
  cases hqq : s.apiCallQueue with
  | nil => exact absurd hqq hq
  | cons c rest =>
    simp only [tdispatch, hqq]
    refine ⟨?_, ?_, ?_, ?_, ?_, ?_, ?_⟩
    · intro _
      rw [hloops]
      rfl
    · intro hc
      rw [hflag] at hc
      cases hc
    · exact le_trans (Nat.le_add_right _ _) hfloorNow
    · intro p hp hpw
      rw [hloops] at hp
      simp only [List.nil_append, List.mem_singleton] at hp
      subst hp
      simp [TLoopState.isWaiting] at hpw
    · intro p hp r hpr
      rw [hloops] at hp
      simp only [List.nil_append, List.mem_singleton] at hp
      subst hp
      cases hpr
    · simp only [latestCompletion]
      exact hlastHist
    · refine ⟨?_, hfloor⟩
      intro ct hct
      rw [hct] at hlastHist
      simp only [Option.getD_some] at hlastHist
      omega

theorem TInv_titerate (s : TGateState) (loopId : Nat)
    (hloops : s.loops = [])
    (hflag : s.isProcessingQueue = true)
    (hlastNow : s.lastAPICallTime ≤ s.now)
    (hlastHist : s.lastAPICallTime = (latestCompletion s.history).getD 0)
    (hfloor : dispatchesRespectFloor s.history) :
    TInv (titerate s loopId) := by
  cases hqq : s.apiCallQueue with
  | nil =>
    simp only [titerate, hqq]
    refine ⟨?_, ?_, hlastNow, ?_, ?_, hlastHist, hfloor⟩
    · intro hc
      cases hc
    · intro _
      exact hloops
    · intro p hp
      rw [hloops] at hp
      cases hp
    · intro p hp
      rw [hloops] at hp
      cases hp
  | cons c rest =>
    by_cases hw : s.now - s.lastAPICallTime < RATE_LIMIT_DELAY
    · simp only [titerate, hqq, if_pos hw]
      refine ⟨?_, ?_, hlastNow, ?_, ?_, hlastHist, hfloor⟩
      · intro _
        rw [hloops]
        rfl
      · intro hc
        rw [hflag] at hc
        cases hc
      · intro p hp _
        simp [hqq]
      · intro p hp r hpr
        rw [hloops] at hp
        simp only [List.nil_append, List.mem_singleton] at hp
        subst hp
        simp only [TLoopState.waiting.injEq] at hpr
        show r = s.lastAPICallTime + RATE_LIMIT_DELAY
        omega
    · simp only [titerate, hqq, if_neg hw]
      refine TInv_tdispatch_of_floor s loopId hloops hflag (by omega) hlastHist hfloor
        (by simp [hqq])

theorem TInv_tstep (s : TGateState) (e : TEv) (hW : TInv s)
    (hne : e.isReset = false) : TInv (tstep s e) := by
  cases e with
  | reset dt => simp [TEv.isReset] at hne
  | submit dt =>
    by_cases hf : s.isProcessingQueue = true
    · simp only [tstep, if_pos hf]
      refine ⟨?_, ?_, ?_, ?_, ?_, hW.lastHist, hW.floor⟩
      · intro hc
        exact hW.flagOne hc
      · intro hc
        exact hW.flagNone hc
      · exact le_trans hW.lastNow (Nat.le_add_right _ _)
      · intro p hp _
        simp
      · intro p hp r hpr
        exact hW.waitExact p hp r hpr
    · have hff : s.isProcessingQueue = false := by
        cases hv : s.isProcessingQueue
        · rfl
        · exact absurd hv hf
      simp only [tstep, if_neg hf]
      refine TInv_titerate _ _ ?_ rfl ?_ ?_ ?_
      · exact hW.flagNone hff
      · exact le_trans hW.lastNow (Nat.le_add_right _ _)
      · exact hW.lastHist
      · exact hW.floor
  | timer loopId =>
    cases hfw : findWaiting s loopId with
    | none => simpa [tstep, hfw] using hW
    | some r =>
      by_cases hnr : s.now ≤ r
      · simp only [tstep, hfw, if_pos hnr]
        have hmem := findWaiting_mem s loopId r hfw
        have hflag : s.isProcessingQueue = true := by
          cases hv : s.isProcessingQueue
          · rw [hW.flagNone hv] at hmem
            cases hmem
          · rfl
        have hone : s.loops = [(loopId, TLoopState.waiting r)] :=
          mem_length_one _ _ (hW.flagOne hflag) hmem
        have hrx : r = s.lastAPICallTime + RATE_LIMIT_DELAY :=
          hW.waitExact _ hmem r rfl
        have hq : s.apiCallQueue ≠ [] :=
          hW.waitQueue _ hmem (by simp [TLoopState.isWaiting])
        refine TInv_tdispatch_of_floor _ loopId ?_ hflag ?_ hW.lastHist hW.floor hq
        · show (s.loops.filter (fun p => p.1 ≠ loopId)) = []
          rw [hone]
          simp
        · show s.lastAPICallTime + RATE_LIMIT_DELAY ≤ r
          omega
      · simpa [tstep, hfw, hnr] using hW
  | complete loopId dt =>
    cases hfc : findInCall s loopId with
    | none => simpa [tstep, hfc] using hW
    | some c =>
      simp only [tstep, hfc]
      have hmem := findInCall_mem s loopId c hfc
      have hflag : s.isProcessingQueue = true := by
        cases hv : s.isProcessingQueue
        · rw [hW.flagNone hv] at hmem
          cases hmem
        · rfl
      have hone : s.loops = [(loopId, TLoopState.inCall c)] :=
        mem_length_one _ _ (hW.flagOne hflag) hmem
      refine TInv_titerate _ _ ?_ hflag ?_ ?_ ?_
      · show (s.loops.filter (fun p => p.1 ≠ loopId)) = []
        rw [hone]
        simp
      · exact le_refl _
      · show s.now + dt =
          (latestCompletion (TRec.completion loopId c (s.now + dt) :: s.history)).getD 0
        simp [latestCompletion]
      · show dispatchesRespectFloor (TRec.completion loopId c (s.now + dt) :: s.history)
        simpa [dispatchesRespectFloor] using hW.floor

theorem TInv_texec (evs : List TEv) (hres : ∀ e ∈ evs, e.isReset = false) :
    ∀ s : TGateState, TInv s → TInv (tgateExec s evs) := by
  induction evs with
  | nil => intro s h; exact h
  | cons e es ih =>
    intro s h
    exact ih (fun e he => hres e (by simp [he])) _
      (TInv_tstep s e h (hres e (by simp)))

theorem TInv_init (t0 : Nat) : TInv (tgateInit t0) := by
  refine ⟨?_, ?_, ?_, ?_, ?_, rfl, trivial⟩
  · intro hc
    cases hc
  · intro _
    rfl
  · exact Nat.zero_le _
  · intro p hp
    cases hp
  · intro p hp
    cases hp

/-- **C3 (amended).** In every timed-gate execution with no
`initializeProcessing` reset: at most one outbound call is in flight at any
point; every call the drain loop dispatches starts at least
`RATE_LIMIT_DELAY` (2000 ms) after the most recently observed call
completion — the floor is measured from the completion instant
(`lastAPICallTime := Date.now()` on settle), not from submission, and this
holds across drain-loop exits and restarts, so a slow call never shrinks
the next wait below the floor; and whenever the loop sleeps, its scheduled
resumption is exactly `lastAPICallTime + RATE_LIMIT_DELAY`, so the enforced
wait never exceeds the floor either.  (The unamended claim, quantified over
resets as well, is refuted by `C3_counterexample`: a reset zeroes
`lastAPICallTime` and clears the flag while a call is in flight, and the
next submission dispatches immediately on a second loop.) -/
theorem C3_rate_floor_reset_free (t0 : Nat) (evs : List TEv)
    (hres : ∀ e ∈ evs, e.isReset = false) :
    ((tgateExec (tgateInit t0) evs).loops.countP (fun p => p.2.isInCall)) ≤ 1 ∧
    dispatchesRespectFloor (tgateExec (tgateInit t0) evs).history ∧
    (∀ p ∈ (tgateExec (tgateInit t0) evs).loops, ∀ r,
      p.2 = TLoopState.waiting r →
      r = (tgateExec (tgateInit t0) evs).lastAPICallTime + RATE_LIMIT_DELAY) := by
  have hW := TInv_texec evs hres (tgateInit t0) (TInv_init t0)
  refine ⟨?_, hW.floor, hW.waitExact⟩
  have hlen : (tgateExec (tgateInit t0) evs).loops.length ≤ 1 := by
    cases hv : (tgateExec (tgateInit t0) evs).isProcessingQueue
    · rw [hW.flagNone hv]
      simp
    · rw [hW.flagOne hv]
  exact le_trans (List.countP_le_length _) hlen

/-- Concrete instance of `C3_rate_floor_reset_free`: a call completes at
5050, a new submission arrives at 5060, and its dispatch is scheduled for —
and fires at — exactly 7050 = 5050 + 2000. -/
theorem C3_rate_floor_reset_free_witness :
    ((tgateExec (tgateInit 5000)
        [TEv.submit 0, TEv.complete 0 50, TEv.submit 10,
         TEv.timer 1]).loops.countP (fun p => p.2.isInCall)) ≤ 1 ∧
    dispatchesRespectFloor (tgateExec (tgateInit 5000)
        [TEv.submit 0, TEv.complete 0 50, TEv.submit 10,
         TEv.timer 1]).history :=
  ⟨(C3_rate_floor_reset_free 5000
      [TEv.submit 0, TEv.complete 0 50, TEv.submit 10, TEv.timer 1]
      (by decide)).1,
   (C3_rate_floor_reset_free 5000
      [TEv.submit 0, TEv.complete 0 50, TEv.submit 10, TEv.timer 1]
      (by decide)).2.1⟩
